import Mathlib

/-!
# Image processor: bitmap codec and filter engine

A shallow embedding of `src/image_processor` (BitmapStructure.h, ImageChanger.h,
ImageChanger.cpp) and the properties of its codec and filters.

Conventions of the embedding.

* A byte is a natural number below 256; a file is the list of its bytes. The host is
  little-endian and the two header structs are packed (`#pragma pack(push, 1)`), so writing
  a struct writes its fields in declaration order, least significant byte first.
* The fixed-width integers of the file format (`uint32_t`, `int32_t`, `uint16_t`) and the
  `uint8_t` channels are exact: every conversion into one of them is a reduction modulo
  `2 ^ w`. The plain `int` and `size_t` values of the in-memory arithmetic are unbounded
  integers: the model is exact wherever no such value leaves the range of its type.
* Memory is unbounded: no allocation fails.
* `image_` is a list of rows. Reading `image_[y][x]` outside the vector is undefined in the
  source; `getPixel` then returns the zero pixel, `setPixel` does nothing, and the width
  `image_[0].size()` of an image without rows is 0. The theorems about pixels are about
  rectangular images, where all accesses are inside.
* An exception thrown by the source is a value of `Exception`; a member function that can
  throw returns `Except Exception _`. ApplyImageSplit, which can also divide an `int` by
  zero, returns `Except Failure _`.
* The streams are taken as opened: the two `if (!file)` checks concern the file system.
-/

namespace ImageProcessor

/-! ## BitmapStructure.h -/

/-- Pixel of BitmapStructure.h: three `uint8_t` channels, in memory order b, g, r. -/
structure Pixel where
  b : Nat
  g : Nat
  r : Nat
deriving DecidableEq

instance : Inhabited Pixel := ⟨⟨0, 0, 0⟩⟩

/-- Image of BitmapStructure.h: `std::vector<std::vector<Pixel>>`, a list of rows. -/
abbrev Image := List (List Pixel)

/-- BitmapHeader of BitmapStructure.h (14 bytes when packed). -/
structure BitmapHeader where
  signature : Nat × Nat
  file_size : Nat
  reserved : Nat
  data_offset : Nat
deriving DecidableEq

/-- DibHeader of BitmapStructure.h (40 bytes when packed); the `int32_t` fields are integers
in the signed 32-bit range. -/
structure DibHeader where
  header_size : Nat
  width : Int
  height : Int
  color_plane_count : Nat
  bits_per_pixel : Nat
  compression_method : Nat
  data_size : Nat
  horizontal_resolution : Int
  vertical_resolution : Int
  color_count : Nat
  important_color_count : Nat
deriving DecidableEq

/-- The value of `sizeof(BitmapHeader)`. -/
def sizeofBitmapHeader : Nat := 14

/-- The value of `sizeof(DibHeader)`. -/
def sizeofDibHeader : Nat := 40

/-- The value of `sizeof(Pixel)`. -/
def sizeofPixel : Nat := 3

/-- The constant `MaxColorValue` of ImageChanger.h. -/
def MaxColorValue : Int := 255

/-- The constant `Pixels` of ImageChanger.cpp: the bit depth the codec supports. -/
def Pixels : Nat := 24

/-! ## Fixed-width integers and their bytes -/

/-- Conversion to `uint8_t`. -/
def toUInt8 (n : Int) : Nat := (n % 256).toNat

/-- Conversion to `uint32_t`, as in `static_cast<uint32_t>`. -/
def toUInt32 (n : Nat) : Nat := n % 2 ^ 32

/-- Conversion to `int32_t`, as in `static_cast<int32_t>`: the two's complement reading of the
low 32 bits. -/
def toInt32 (n : Int) : Int := (n + 2 ^ 31) % 2 ^ 32 - 2 ^ 31

/-- The two bytes of a `uint16_t`, least significant first. -/
def bytesOfUInt16 (n : Nat) : List Nat := [n % 256, n / 256 % 256]

/-- The four bytes of a `uint32_t`, least significant first. -/
def bytesOfUInt32 (n : Nat) : List Nat :=
  [n % 256, n / 256 % 256, n / 65536 % 256, n / 16777216 % 256]

/-- The four bytes of an `int32_t`: those of its two's complement representation. -/
def bytesOfInt32 (n : Int) : List Nat := bytesOfUInt32 (n % 2 ^ 32).toNat

/-- The `uint16_t` stored at offset `i` of a byte buffer. -/
def uint16At (bs : List Nat) (i : Nat) : Nat := bs.getD i 0 + 256 * bs.getD (i + 1) 0

/-- The `uint32_t` stored at offset `i` of a byte buffer. -/
def uint32At (bs : List Nat) (i : Nat) : Nat :=
  bs.getD i 0 + 256 * bs.getD (i + 1) 0 + 65536 * bs.getD (i + 2) 0
    + 16777216 * bs.getD (i + 3) 0

/-- The `int32_t` stored at offset `i` of a byte buffer. -/
def int32At (bs : List Nat) (i : Nat) : Int := toInt32 (uint32At bs i)

/-- The bytes of a Pixel object: b, g, r. -/
def Pixel.toBytes (p : Pixel) : List Nat := [p.b, p.g, p.r]

/-- The Pixel object held by a 3-byte buffer. -/
def Pixel.ofBytes (bs : List Nat) : Pixel := ⟨bs.getD 0 0, bs.getD 1 0, bs.getD 2 0⟩

/-- The 14 bytes of a BitmapHeader object. -/
def BitmapHeader.toBytes (h : BitmapHeader) : List Nat :=
  [h.signature.1, h.signature.2] ++ bytesOfUInt32 h.file_size ++ bytesOfUInt32 h.reserved
    ++ bytesOfUInt32 h.data_offset

/-- The BitmapHeader object held by a 14-byte buffer. -/
def BitmapHeader.ofBytes (bs : List Nat) : BitmapHeader :=
  { signature := (bs.getD 0 0, bs.getD 1 0)
    file_size := uint32At bs 2
    reserved := uint32At bs 6
    data_offset := uint32At bs 10 }

/-- The 40 bytes of a DibHeader object. -/
def DibHeader.toBytes (h : DibHeader) : List Nat :=
  bytesOfUInt32 h.header_size ++ bytesOfInt32 h.width ++ bytesOfInt32 h.height
    ++ bytesOfUInt16 h.color_plane_count ++ bytesOfUInt16 h.bits_per_pixel
    ++ bytesOfUInt32 h.compression_method ++ bytesOfUInt32 h.data_size
    ++ bytesOfInt32 h.horizontal_resolution ++ bytesOfInt32 h.vertical_resolution
    ++ bytesOfUInt32 h.color_count ++ bytesOfUInt32 h.important_color_count

/-- The DibHeader object held by a 40-byte buffer. -/
def DibHeader.ofBytes (bs : List Nat) : DibHeader :=
  { header_size := uint32At bs 0
    width := int32At bs 4
    height := int32At bs 8
    color_plane_count := uint16At bs 12
    bits_per_pixel := uint16At bs 14
    compression_method := uint32At bs 16
    data_size := uint32At bs 20
    horizontal_resolution := int32At bs 24
    vertical_resolution := int32At bs 28
    color_count := uint32At bs 32
    important_color_count := uint32At bs 36 }

/-! ## Images -/

/-- The pixel `image[y][x]`. -/
def getPixel (image : Image) (y x : Nat) : Pixel := (image.getD y []).getD x default

/-- The image after the assignment `image[y][x] = p`. -/
def setPixel (image : Image) (y x : Nat) (p : Pixel) : Image :=
  image.set y ((image.getD y []).set x p)

/-- The pixel at row `y`, column `x`, when the image has one there. -/
def pixelAt (image : Image) (y x : Nat) : Option Pixel := (image.getD y [])[x]?

/-- The image has `h` rows and each of them has `w` pixels. -/
def IsRect (image : Image) (w h : Nat) : Prop := image.length = h ∧ ∀ row ∈ image, row.length = w

/-- Every channel of the pixel is an 8-bit value. -/
def Pixel.InRange (p : Pixel) : Prop := p.b < 256 ∧ p.g < 256 ∧ p.r < 256

instance (p : Pixel) : Decidable p.InRange := by
  unfold Pixel.InRange
  infer_instance

/-- Every channel of every pixel of the image is an 8-bit value. -/
def ChannelsInRange (image : Image) : Prop := ∀ row ∈ image, ∀ p ∈ row, p.InRange

instance (image : Image) : Decidable (ChannelsInRange image) := by
  unfold ChannelsInRange
  infer_instance

instance (image : Image) (w h : Nat) : Decidable (IsRect image w h) := by
  unfold IsRect
  infer_instance

/-- The width the source takes for an image: `image_[0].size()`. -/
def widthOf (image : Image) : Nat := (image.getD 0 []).length

/-- The height the source takes for an image: `image_.size()`. -/
def heightOf (image : Image) : Nat := image.length

/-- The stored size of a row of `width` pixels: `row_size + padding_size`, with
`row_size = width * 3` and `padding_size = (4 - row_size % 4) % 4` (ImageChanger.cpp,
lines 38-39 and 58-60). -/
def paddedRowSize (width : Nat) : Nat := width * 3 + (4 - width * 3 % 4) % 4

/-- A test image of `h` rows of `w` pixels whose channels vary with the position. -/
def sampleImage (w h : Nat) : Image :=
  (List.range h).map (fun y =>
    (List.range w).map (fun x =>
      ⟨(7 * x + 3 * y) % 256, (x + 11 * y + 5) % 256, (13 * x * y + 1) % 256⟩))

/-- The 4x2 test image of alternating black and white pixels. -/
def checkerboard : Image :=
  [[⟨0, 0, 0⟩, ⟨255, 255, 255⟩, ⟨0, 0, 0⟩, ⟨255, 255, 255⟩],
   [⟨255, 255, 255⟩, ⟨0, 0, 0⟩, ⟨255, 255, 255⟩, ⟨0, 0, 0⟩]]

/-! ## Exceptions -/

/-- The exceptions the source raises: `std::runtime_error` with its message, thrown by
ReadImage, and `std::length_error`, thrown by `std::vector` when asked for a size that a
negative `int` converts to. -/
inductive Exception where
  | runtime_error (what : String)
  | length_error
deriving DecidableEq

instance instDecidableEqExcept {ε α : Type} [DecidableEq ε] [DecidableEq α] :
    DecidableEq (Except ε α)
  | Except.ok a, Except.ok b =>
    if h : a = b then isTrue (congrArg Except.ok h) else isFalse (fun h2 => h (Except.ok.inj h2))
  | Except.error a, Except.error b =>
    if h : a = b then isTrue (congrArg Except.error h)
    else isFalse (fun h2 => h (Except.error.inj h2))
  | Except.ok _, Except.error _ => isFalse (fun h => Except.noConfusion h)
  | Except.error _, Except.ok _ => isFalse (fun h => Except.noConfusion h)

/-- The exception of ImageChanger.cpp line 29, the spec's FormatError. -/
def FormatError : Exception := Exception.runtime_error "Invalid file format"

/-- The exception of ImageChanger.cpp line 33, the spec's UnsupportedFormatError. -/
def UnsupportedFormatError : Exception := Exception.runtime_error "Invalid image format"

/-! ## Floating point

A finite non-negative binary floating-point number is `m * 2 ^ e`. The operations below are
the IEEE 754 ones for the default rounding (to nearest, ties to even) at a precision of `p`
significant bits: `p = 53` is `double`, `p = 24` is `float`. The exponent is unbounded: an
operation is exact in the model unless its result overflows or is subnormal. No value of
ApplyGrayscale, ApplyCircularBlur and ApplyEdgeDetection comes near either range; in
ApplyGaussianBlur a kernel value is subnormal only for a `sigma` below about 0.1. All the
floating-point values of the filters modelled here are non-negative. An expression is
evaluated in its own format, one rounding for each operation. -/

/-- A non-negative floating-point value: `m * 2 ^ e`. -/
structure Flt where
  m : Nat
  e : Int
deriving DecidableEq

/-- Number of binary digits of `n`, with `fuel` bounding the recursion. -/
def bitLengthAux : Nat → Nat → Nat
  | 0, _ => 0
  | fuel + 1, n => if n = 0 then 0 else bitLengthAux fuel (n / 2) + 1

/-- Number of binary digits of `n`: the least `k` with `n < 2 ^ k`. -/
def bitLength (n : Nat) : Nat := bitLengthAux n n

/-- Rounding to `p` significant bits, to nearest, ties to even. -/
def Flt.round (p : Nat) (x : Flt) : Flt :=
  let s := bitLength x.m - p
  if s = 0 then x
  else
    let q := x.m / 2 ^ s
    let r := x.m % 2 ^ s
    let half := 2 ^ (s - 1)
    if half < r ∨ (r = half ∧ q % 2 = 1) then ⟨q + 1, x.e + s⟩ else ⟨q, x.e + s⟩

/-- Conversion of an unsigned integer to floating point. -/
def Flt.ofNat (p : Nat) (n : Nat) : Flt := Flt.round p ⟨n, 0⟩

/-- Floating-point addition: the exact sum, rounded. -/
def Flt.add (p : Nat) (a b : Flt) : Flt :=
  let e := min a.e b.e
  Flt.round p ⟨a.m * 2 ^ (a.e - e).toNat + b.m * 2 ^ (b.e - e).toNat, e⟩

/-- Floating-point multiplication: the exact product, rounded. -/
def Flt.mul (p : Nat) (a b : Flt) : Flt := Flt.round p ⟨a.m * b.m, a.e + b.e⟩

/-- Floating-point division by a nonzero value: the quotient is computed to `p + 2` bits or
more, a last bit records whether the division left a remainder, and the result is rounded. -/
def Flt.div (p : Nat) (a b : Flt) : Flt :=
  let t := bitLength b.m + p + 2
  let n := a.m * 2 ^ t
  let q := n / b.m
  let sticky := if n % b.m = 0 then 0 else 1
  Flt.round p ⟨2 * q + sticky, a.e - b.e - t - 1⟩

/-- Conversion of a non-negative floating-point value to an integer type: truncation. -/
def Flt.toInt (x : Flt) : Int :=
  if 0 ≤ x.e then x.m * 2 ^ x.e.toNat else x.m / 2 ^ (-x.e).toNat

/-- The value of `x` counted in units of `2 ^ -56`, for a value with `-56 ≤ x.e`: the scale
on which the `double` values of ApplyGrayscale are compared with exact arithmetic. -/
def Flt.units (x : Flt) : Nat := x.m * 2 ^ (x.e + 56).toNat

/-- The floating-point operations a filter uses, on a type `F` of values. -/
structure FloatArith where
  F : Type
  zero : F
  one : F
  ofUInt8 : Nat → F
  add : F → F → F
  mul : F → F → F
  div : F → F → F
  toInt : F → Int

/-- The `float` arithmetic of IEEE 754 (binary32). -/
def binary32 : FloatArith :=
  { F := Flt
    zero := ⟨0, 0⟩
    one := ⟨1, 0⟩
    ofUInt8 := Flt.ofNat 24
    add := Flt.add 24
    mul := Flt.mul 24
    div := Flt.div 24
    toInt := Flt.toInt }

/-! ## Bitmap codec: ImageChanger::ReadImage and ImageChanger::WriteImage -/

/-- The call `file.read(buf, n)` on an input stream whose unread bytes are `file`: the bytes
extracted overwrite the start of the `n`-byte buffer `buf`, and the stream advances. When
fewer than `n` bytes are left all of them are extracted, the rest of the buffer keeps its old
contents, and the stream fails: nothing is left for later reads. -/
def istream_read (n : Nat) (buf : List Nat) (file : List Nat) : List Nat × List Nat :=
  (file.take n ++ buf.drop (file.take n).length, file.drop n)

/-- The call `file.ignore(n)`. -/
def istream_ignore (n : Nat) (file : List Nat) : List Nat := file.drop n

/-- Body of the inner loop of ReadImage (lines 43-44): read `image_[y][x]` from the stream. -/
def ReadImage.readPixel (y : Nat) (st : Image × List Nat) (x : Nat) : Image × List Nat :=
  let pixel := getPixel st.1 y x
  let rd := istream_read sizeofPixel pixel.toBytes st.2
  (setPixel st.1 y x (Pixel.ofBytes rd.1), rd.2)

/-- Body of the outer loop of ReadImage (lines 42-46): read row `y`, then skip the padding. -/
def ReadImage.readRow (width padding_size : Nat) (st : Image × List Nat) (y : Nat) :
    Image × List Nat :=
  let st1 := (List.range width).foldl (ReadImage.readPixel y) st
  (st1.1, istream_ignore padding_size st1.2)

/-- ReadImage from the signature check on (lines 28-47): `bitmap_header` and `dib_header`
are the header objects after the two reads of lines 25-26, `file` the unread bytes. The
result is the new value of `image_`, which is empty when ReadImage is entered (the
constructor is its only caller). -/
def ReadImage.decode (bitmap_header : BitmapHeader) (dib_header : DibHeader)
    (file : List Nat) : Except Exception Image :=
  if bitmap_header.signature.1 ≠ 66 ∨ bitmap_header.signature.2 ≠ 77 then
    throw (Exception.runtime_error "Invalid file format")
  else if dib_header.bits_per_pixel ≠ Pixels ∨ dib_header.compression_method ≠ 0 then
    throw (Exception.runtime_error "Invalid image format")
  else if dib_header.width < 0 ∨ dib_header.height < 0 then
    -- `std::vector<Pixel>(width)` and `image_.resize(height, _)` with a negative `int`
    throw Exception.length_error
  else
    let width := dib_header.width.toNat
    let height := dib_header.height.toNat
    let image_ : Image := List.replicate height (List.replicate width ⟨0, 0, 0⟩)
    let row_size := width * 3
    let padding_size := (4 - row_size % 4) % 4
    let st := (List.range height).reverse.foldl (ReadImage.readRow width padding_size)
      (image_, file)
    pure st.1

/-- ImageChanger::ReadImage, on the bytes `file` of the input file. `uninit` is the
indeterminate initial content of the two header objects, which are locals without
initialiser (14 bytes, then 40). -/
def ReadImage (uninit : List Nat) (file : List Nat) : Except Exception Image :=
  let rd1 := istream_read sizeofBitmapHeader (uninit.take sizeofBitmapHeader) file
  let rd2 := istream_read sizeofDibHeader
    ((uninit.drop sizeofBitmapHeader).take sizeofDibHeader) rd1.2
  ReadImage.decode (BitmapHeader.ofBytes rd1.1) (DibHeader.ofBytes rd2.1) rd2.2

/-- The headers WriteImage builds for an image of the given `width` and `height`
(lines 58-79), as the 54 bytes written by lines 81-82. -/
def WriteImage.headers (width height : Nat) : List Nat :=
  let row_size := width * 3
  let padding_size := (4 - row_size % 4) % 4
  let data_size := (row_size + padding_size) * height
  let bitmap_header : BitmapHeader :=
    { signature := (66, 77)
      file_size := toUInt32 (sizeofBitmapHeader + sizeofDibHeader + data_size)
      reserved := 0
      data_offset := toUInt32 (sizeofBitmapHeader + sizeofDibHeader) }
  let x_p : Int := 2835
  let y_p : Int := 2835
  let dib_header : DibHeader :=
    { header_size := sizeofDibHeader
      width := toInt32 width
      height := toInt32 height
      color_plane_count := 1
      bits_per_pixel := Pixels
      compression_method := 0
      data_size := toUInt32 data_size
      horizontal_resolution := x_p
      vertical_resolution := y_p
      color_count := 0
      important_color_count := 0 }
  bitmap_header.toBytes ++ dib_header.toBytes

/-- The bytes WriteImage writes for row `y` (lines 85-91): the pixels, then the padding. -/
def WriteImage.row (image_ : Image) (width padding_size : Nat) (y : Nat) : List Nat :=
  (List.range width).flatMap (fun x => (getPixel image_ y x).toBytes)
    ++ List.replicate padding_size 0

/-- ImageChanger::WriteImage: the bytes written to the output file. The row loop runs
`y` from `static_cast<int32_t>(height) - 1` down to 0. -/
def WriteImage (image_ : Image) : List Nat :=
  let width := (image_.getD 0 []).length
  let height := image_.length
  let row_size := width * 3
  let padding_size := (4 - row_size % 4) % 4
  WriteImage.headers width height
    ++ (List.range (toInt32 height - 1 + 1).toNat).reverse.flatMap
        (WriteImage.row image_ width padding_size)

/-! ## Filter engine -/

/-- The call `v.resize(n)` of `std::vector` with an `int` argument: a negative `n` converts to
a size above `max_size()` and the call throws `std::length_error`; otherwise the vector is
cut to, or filled with `fill` up to, `n` elements. -/
def vector_resize {α : Type} (v : List α) (n : Int) (fill : α) : Except Exception (List α) :=
  if n < 0 then throw Exception.length_error
  else pure (v.take n.toNat ++ List.replicate (n.toNat - v.length) fill)

/-- ImageChanger::ApplyCrop. -/
def ApplyCrop (width height : Int) (image_ : Image) : Except Exception Image := do
  let original_height := image_.length
  let original_width := (image_.getD 0 []).length
  let crop_width : Int := min width (original_width : Int)
  let crop_height : Int := min height (original_height : Int)
  let image1 ← vector_resize image_ crop_height []
  image1.mapM (fun row => vector_resize row crop_width default)

/-- The `double` nearest to the literal `0.299`. -/
def ApplyGrayscale.c299 : Flt := ⟨5386305154335113, -54⟩

/-- The `double` nearest to the literal `0.587`. -/
def ApplyGrayscale.c587 : Flt := ⟨5287225962532962, -53⟩

/-- The `double` nearest to the literal `0.114`. -/
def ApplyGrayscale.c114 : Flt := ⟨8214565720323785, -56⟩

/-- The `double` expression `0.299 * r + 0.587 * g + 0.114 * b` of ApplyGrayscale, the
channels being converted to `double` exactly. -/
def ApplyGrayscale.luma (r g b : Nat) : Flt :=
  Flt.add 53
    (Flt.add 53 (Flt.mul 53 ApplyGrayscale.c299 ⟨r, 0⟩) (Flt.mul 53 ApplyGrayscale.c587 ⟨g, 0⟩))
    (Flt.mul 53 ApplyGrayscale.c114 ⟨b, 0⟩)

/-- Body of the loops of ApplyGrayscale (lines 111-114). -/
def ApplyGrayscale.pixel (pixel : Pixel) : Pixel :=
  let gray_value := toUInt8 (Flt.toInt (ApplyGrayscale.luma pixel.r pixel.g pixel.b))
  { r := gray_value, g := gray_value, b := gray_value }

/-- ImageChanger::ApplyGrayscale. -/
def ApplyGrayscale (image_ : Image) : Image :=
  image_.map (fun row => row.map ApplyGrayscale.pixel)

/-- Body of the loops of ApplyNegative (lines 122-124). -/
def ApplyNegative.pixel (pixel : Pixel) : Pixel :=
  { r := toUInt8 (MaxColorValue - pixel.r)
    g := toUInt8 (MaxColorValue - pixel.g)
    b := toUInt8 (MaxColorValue - pixel.b) }

/-- ImageChanger::ApplyNegative. -/
def ApplyNegative (image_ : Image) : Image :=
  image_.map (fun row => row.map ApplyNegative.pixel)

/-- The values a loop `for (int i = lo; i < hi; ++i)` gives to `i`, in order. -/
def intRange (lo hi : Int) : List Int :=
  (List.range (hi - lo).toNat).map (fun (i : Nat) => lo + (i : Int))

/-- The kernel of ApplyCircularBlur after lines 241-251: row `y + radius` holds, at column
`x + radius`, 1.0f when the offset `(x, y)` is in the disc and 0.0f otherwise. -/
def ApplyCircularBlur.disc (A : FloatArith) (radius : Int) : List (List A.F) :=
  (intRange (-radius) (radius + 1)).map (fun y =>
    (intRange (-radius) (radius + 1)).map (fun x =>
      if x * x + y * y ≤ radius * radius then A.one else A.zero))

/-- The value of `kernel_sum` after lines 242-251: 1.0f is added once for each offset in the
disc, in loop order. -/
def ApplyCircularBlur.kernel_sum (A : FloatArith) (radius : Int) : A.F :=
  (intRange (-radius) (radius + 1)).foldl (fun sum y =>
    (intRange (-radius) (radius + 1)).foldl (fun sum x =>
      if x * x + y * y ≤ radius * radius then A.add sum A.one else sum) sum) A.zero

/-- The kernel of ApplyCircularBlur after lines 253-257: every value divided by
`kernel_sum`. -/
def ApplyCircularBlur.kernel (A : FloatArith) (radius : Int) : List (List A.F) :=
  (ApplyCircularBlur.disc A radius).map (fun row =>
    row.map (fun value => A.div value (ApplyCircularBlur.kernel_sum A radius)))

/-- The accumulator of one channel after the loops of lines 264-272 at pixel `(x, y)`. -/
def ApplyCircularBlur.sum (A : FloatArith) (kernel : List (List A.F)) (image_ : Image)
    (radius : Int) (kernel_size : Nat) (channel : Pixel → Nat) (y x : Int) : A.F :=
  (List.range kernel_size).foldl (fun (sum : A.F) (ky : Nat) =>
    (List.range kernel_size).foldl (fun (sum : A.F) (kx : Nat) =>
      let pixel := getPixel image_ (y - radius + (ky : Int)).toNat (x - radius + (kx : Int)).toNat
      let kernel_value := (kernel.getD ky []).getD kx A.zero
      A.add sum (A.mul (A.ofUInt8 (channel pixel)) kernel_value)) sum) A.zero

/-- The pixel stored by lines 273-276 at `(x, y)`. -/
def ApplyCircularBlur.pixel (A : FloatArith) (kernel : List (List A.F)) (image_ : Image)
    (radius : Int) (kernel_size : Nat) (y x : Int) : Pixel :=
  let sum_r := ApplyCircularBlur.sum A kernel image_ radius kernel_size Pixel.r y x
  let sum_g := ApplyCircularBlur.sum A kernel image_ radius kernel_size Pixel.g y x
  let sum_b := ApplyCircularBlur.sum A kernel image_ radius kernel_size Pixel.b y x
  { r := toUInt8 (min MaxColorValue (max 0 (A.toInt sum_r)))
    g := toUInt8 (min MaxColorValue (max 0 (A.toInt sum_g)))
    b := toUInt8 (min MaxColorValue (max 0 (A.toInt sum_b))) }

/-- ImageChanger::ApplyCircularBlur, over the `float` arithmetic `A`. A negative
`kernel_size` makes the construction of `kernel` throw `std::length_error`. -/
def ApplyCircularBlur (A : FloatArith) (radius : Int) (image_ : Image) :
    Except Exception Image :=
  let kernel_size : Int := 2 * radius + 1
  let height := image_.length
  let width := (image_.getD 0 []).length
  if kernel_size < 0 then throw Exception.length_error
  else
    let kernel := ApplyCircularBlur.kernel A radius
    pure ((intRange radius ((height : Int) - radius)).foldl (fun result y =>
      (intRange radius ((width : Int) - radius)).foldl (fun result x =>
        setPixel result y.toNat x.toNat
          (ApplyCircularBlur.pixel A kernel image_ radius kernel_size.toNat y x)) result) image_)

/-! ### ApplyMatrix, ApplySharpening, ApplyEdgeDetection -/

/-- The adjustment of a sample coordinate in ApplyMatrix (lines 362-366, and 367-371 with
`height`): a coordinate outside `0 .. size - 1` is replaced by the nearest bound. -/
def ApplyMatrix.clampIndex (index size : Int) : Int :=
  if index < 0 then 0 else if index ≥ size then size - 1 else index

/-- The accumulator of one channel after the kernel loops of ApplyMatrix (lines 357-379) at
pixel `(x, y)`. -/
def ApplyMatrix.sum (kernel : List (List Int)) (image_ : Image) (channel : Pixel → Nat)
    (y x : Int) : Int :=
  let kernel_size : Int := kernel.length
  let kernel_half_size : Int := kernel_size / 2
  let height : Int := image_.length
  let width : Int := (image_.getD 0 []).length
  (intRange 0 kernel_size).foldl (fun (sum : Int) (ky : Int) =>
    (intRange 0 kernel_size).foldl (fun (sum : Int) (kx : Int) =>
      let image_x := ApplyMatrix.clampIndex (x - kernel_half_size + kx) width
      let image_y := ApplyMatrix.clampIndex (y - kernel_half_size + ky) height
      let pixel := getPixel image_ image_y.toNat image_x.toNat
      let kernel_value := (kernel.getD ky.toNat []).getD kx.toNat 0
      sum + (channel pixel : Int) * kernel_value) sum) 0

/-- The pixel stored by lines 381-384 at `(x, y)`. -/
def ApplyMatrix.pixel (kernel : List (List Int)) (image_ : Image) (y x : Int) : Pixel :=
  { r := toUInt8 (min MaxColorValue (max 0 (ApplyMatrix.sum kernel image_ Pixel.r y x)))
    g := toUInt8 (min MaxColorValue (max 0 (ApplyMatrix.sum kernel image_ Pixel.g y x)))
    b := toUInt8 (min MaxColorValue (max 0 (ApplyMatrix.sum kernel image_ Pixel.b y x))) }

/-- ImageChanger::ApplyMatrix: every pixel of the copy `result` is computed from `image_`,
then `result` becomes the image. -/
def ApplyMatrix (kernel : List (List Int)) (image_ : Image) : Image :=
  let height := image_.length
  let width := (image_.getD 0 []).length
  (List.range height).foldl (fun result y =>
    (List.range width).foldl (fun result x =>
      setPixel result y x (ApplyMatrix.pixel kernel image_ y x)) result) image_

/-- ImageChanger::ApplySharpening. -/
def ApplySharpening (image_ : Image) : Image :=
  ApplyMatrix [[0, -1, 0], [-1, 5, -1], [0, -1, 0]] image_

/-- A `double` argument: a finite value with its sign, an infinity with its sign, or a NaN. -/
inductive Double where
  | finite (negative : Bool) (magnitude : Flt)
  | infinity (negative : Bool)
  | nan
deriving DecidableEq

/-- The comparison `a < b` of two non-negative finite floating-point values. -/
def Flt.lt (a b : Flt) : Bool :=
  decide (a.m * 2 ^ (a.e - min a.e b.e).toNat < b.m * 2 ^ (b.e - min a.e b.e).toNat)

/-- The comparison `a < t` of a non-negative finite `double` with any `double`: false when
`t` is negative, a zero or a NaN. -/
def Flt.ltDouble (a : Flt) : Double → Bool
  | Double.finite false x => Flt.lt a x
  | Double.finite true _ => false
  | Double.infinity negative => !negative
  | Double.nan => false

/-- Body of the loops of ApplyEdgeDetection (lines 146-154): the test divides the red channel
by `MaxColorValue` in `double`. -/
def ApplyEdgeDetection.pixel (threshold : Double) (pixel : Pixel) : Pixel :=
  if Flt.ltDouble (Flt.div 53 ⟨pixel.r, 0⟩ ⟨MaxColorValue.toNat, 0⟩) threshold then
    { r := 0, b := 0, g := 0 }
  else
    { r := toUInt8 MaxColorValue, b := toUInt8 MaxColorValue, g := toUInt8 MaxColorValue }

/-- ImageChanger::ApplyEdgeDetection. -/
def ApplyEdgeDetection (threshold : Double) (image_ : Image) : Image :=
  let image_ := ApplyGrayscale image_
  let image_ := ApplyMatrix [[0, -1, 0], [-1, 4, -1], [0, -1, 0]] image_
  let height := image_.length
  let width := (image_.getD 0 []).length
  (List.range height).foldl (fun image_ y =>
    (List.range width).foldl (fun image_ x =>
      setPixel image_ y x (ApplyEdgeDetection.pixel threshold (getPixel image_ y x))) image_)
    image_


/-! ### ApplyGaussianBlur -/

/-- The call `std::min(a, b)` on non-negative finite values: `b` when `b < a`, else `a`. -/
def Flt.min (a b : Flt) : Flt := if Flt.lt b a then b else a

/-- The call `std::max(a, b)` on non-negative finite values: `b` when `a < b`, else `a`. -/
def Flt.max (a b : Flt) : Flt := if Flt.lt a b then b else a

/-- The call `std::ceil(x)` on a non-negative finite value, as an integer. -/
def Flt.ceil (x : Flt) : Int :=
  if 0 ≤ x.e then x.m * 2 ^ x.e.toNat
  else ((x.m + 2 ^ (-x.e).toNat - 1) / 2 ^ (-x.e).toNat : Nat)

/-- Integer square root, one binary digit for each step: `r` holds the digits found so far. -/
def isqrtAux : Nat → Nat → Nat → Nat
  | 0, _, r => r
  | k + 1, n, r => if (r + 2 ^ k) * (r + 2 ^ k) ≤ n then isqrtAux k n (r + 2 ^ k) else isqrtAux k n r

/-- Integer square root: the largest `r` with `r * r ≤ n`. -/
def isqrt (n : Nat) : Nat := isqrtAux (bitLength n / 2 + 1) n 0

/-- The call `std::sqrt(x)`, which IEEE 754 requires to be correctly rounded: the root is
computed to `p + 3` bits or more, a last bit records whether it is inexact, and the result is
rounded. -/
def Flt.sqrt (p : Nat) (x : Flt) : Flt :=
  let k : Int := 2 * (p + 2) + x.e % 2
  let n := x.m * 2 ^ k.toNat
  let q := isqrt n
  let sticky := if q * q = n then 0 else 1
  Flt.round p ⟨2 * q + sticky, (x.e - k) / 2 - 1⟩

/-- The constant `M_PI` of `<cmath>`: the `double` nearest to pi. -/
def M_PI : Flt := ⟨884279719003555, -48⟩

/-- The value of `radius` at line 160: `static_cast<int>(std::ceil(3 * sigma))`. -/
def ApplyGaussianBlur.radius (sigma : Flt) : Int := Flt.ceil (Flt.mul 53 ⟨3, 0⟩ sigma)

/-- The lambda `gaussian` of lines 165-169, evaluated in `double`. The argument of `std::exp`
is never positive: `exp a` stands for the value of `std::exp(-a)`, a function of the C library
that the source does not define. -/
def ApplyGaussianBlur.gaussian (exp : Flt → Flt) (sigma : Flt) (x : Int) : Flt :=
  let numerator := exp (Flt.div 53 (Flt.ofNat 53 (x * x).toNat)
    (Flt.mul 53 (Flt.mul 53 ⟨2, 0⟩ sigma) sigma))
  let denominator := Flt.sqrt 53 (Flt.mul 53 (Flt.mul 53 (Flt.mul 53 ⟨2, 0⟩ M_PI) sigma) sigma)
  Flt.div 53 numerator denominator

/-- The kernel after the loop of lines 171-174: the values of `gaussian`, converted to
`float`. -/
def ApplyGaussianBlur.weights (exp : Flt → Flt) (sigma : Flt) (radius : Int) : List Flt :=
  (intRange (-radius) (radius + 1)).map (fun i =>
    Flt.round 24 (ApplyGaussianBlur.gaussian exp sigma i))

/-- The kernel after the loop of lines 176-178: every value divided by `sum`, the `float` sum
of the values in index order. -/
def ApplyGaussianBlur.kernel (exp : Flt → Flt) (sigma : Flt) (radius : Int) : List Flt :=
  let weights := ApplyGaussianBlur.weights exp sigma radius
  let sum := weights.foldl (fun sum value => Flt.add 24 sum value) ⟨0, 0⟩
  weights.map (fun value => Flt.div 24 value sum)

/-- The accumulator of one channel after the loop over `k` of a pass (lines 187-194 and
210-217); `sample k` is the pixel the pass reads for the offset `k`. -/
def ApplyGaussianBlur.sum (kernel : List Flt) (radius : Int) (sample : Int → Pixel)
    (channel : Pixel → Nat) : Flt :=
  (intRange (-radius) (radius + 1)).foldl (fun (sum : Flt) (k : Int) =>
    let weight := kernel.getD (k + radius).toNat ⟨0, 0⟩
    Flt.add 24 sum (Flt.mul 24 (Flt.ofNat 24 (channel (sample k))) weight)) ⟨0, 0⟩

/-- The channel value a pass stores for an accumulator (lines 195-197 and 218-223): the
accumulator limited to 0.0f .. 255.0f and converted to `uint8_t`. -/
def ApplyGaussianBlur.store (sum : Flt) : Nat :=
  toUInt8 (Flt.toInt (Flt.max ⟨0, 0⟩ (Flt.min (Flt.ofNat 24 MaxColorValue.toNat) sum)))

/-- The pixel a pass stores when it reads `sample k` for the offset `k`. -/
def ApplyGaussianBlur.pixel (kernel : List Flt) (radius : Int) (sample : Int → Pixel) : Pixel :=
  { r := ApplyGaussianBlur.store (ApplyGaussianBlur.sum kernel radius sample Pixel.r)
    g := ApplyGaussianBlur.store (ApplyGaussianBlur.sum kernel radius sample Pixel.g)
    b := ApplyGaussianBlur.store (ApplyGaussianBlur.sum kernel radius sample Pixel.b) }

/-- The lambda `horizontal_pass` of lines 180-201. -/
def ApplyGaussianBlur.horizontal_pass (kernel : List Flt) (radius : Int) (source : Image) :
    Image :=
  let height := source.length
  let width := (source.getD 0 []).length
  let temp : Image := List.replicate height (List.replicate width default)
  (List.range height).foldl (fun temp y =>
    (List.range width).foldl (fun temp x =>
      setPixel temp y x (ApplyGaussianBlur.pixel kernel radius (fun k =>
        let sample_x := min (max ((x : Int) + k) 0) ((width : Int) - 1)
        getPixel source y sample_x.toNat))) temp) temp

/-- The lambda `vertical_pass` of lines 203-227: the column loop is the outer one. -/
def ApplyGaussianBlur.vertical_pass (kernel : List Flt) (radius : Int) (temp : Image) : Image :=
  let height := temp.length
  let width := (temp.getD 0 []).length
  let output : Image := List.replicate height (List.replicate width default)
  (List.range width).foldl (fun output x =>
    (List.range height).foldl (fun output y =>
      setPixel output y x (ApplyGaussianBlur.pixel kernel radius (fun k =>
        let sample_y := min (max ((y : Int) + k) 0) ((height : Int) - 1)
        getPixel temp sample_y.toNat x))) output) output

/-- ImageChanger::ApplyGaussianBlur, for a finite `sigma` that is not negative. -/
def ApplyGaussianBlur (exp : Flt → Flt) (sigma : Flt) (image_ : Image) : Image :=
  let radius := ApplyGaussianBlur.radius sigma
  let kernel := ApplyGaussianBlur.kernel exp sigma radius
  let temp := ApplyGaussianBlur.horizontal_pass kernel radius image_
  ApplyGaussianBlur.vertical_pass kernel radius temp

/-- The ways a call can end without returning: an exception, or the division of an `int` by
zero, for which the language defines no behaviour. -/
inductive Failure where
  | exception (e : Exception)
  | division_by_zero
deriving DecidableEq

/-- An exception of a callee, passed on to the caller. -/
def Failure.lift {α : Type} : Except Exception α → Except Failure α
  | Except.ok a => Except.ok a
  | Except.error e => Except.error (Failure.exception e)

/-- The expression `a / b` on `int`: the quotient truncated toward zero. -/
def int_div (a b : Int) : Except Failure Int :=
  if b = 0 then Except.error Failure.division_by_zero else Except.ok (Int.tdiv a b)

/-- ImageChanger::CeilDiv of ImageChanger.h. -/
def CeilDiv (numerator denominator : Int) : Except Failure Int :=
  int_div (numerator + denominator - 1) denominator

/-- The value of an accumulator after the loops of lines 310-322 over one cell: `value pixel`
is added for each position of the cell inside the original bounds (`pixel.r` for `sum_r`, 1
for `num_pixels`). -/
def ApplyImageSplit.sum (image_ : Image) (original_width original_height : Int)
    (block_start_x block_start_y block_end_x block_end_y : Int) (value : Pixel → Int) : Int :=
  (intRange block_start_y block_end_y).foldl (fun (sum : Int) (y : Int) =>
    (intRange block_start_x block_end_x).foldl (fun (sum : Int) (x : Int) =>
      if y < original_height ∧ x < original_width then
        sum + value (getPixel image_ y.toNat x.toNat)
      else sum) sum) 0

/-- The image after the loops of lines 328-337 over one cell. -/
def ApplyImageSplit.fill (image_ : Image) (original_width original_height : Int)
    (block_start_x block_start_y block_end_x block_end_y : Int) (avg : Pixel) : Image :=
  (intRange block_start_y block_end_y).foldl (fun (image_ : Image) (y : Int) =>
    (intRange block_start_x block_end_x).foldl (fun (image_ : Image) (x : Int) =>
      if y < original_height ∧ x < original_width then setPixel image_ y.toNat x.toNat avg
      else image_) image_) image_

/-- The colour that lines 324-326 compute for a cell whose `num_pixels` is not zero: the
quotients of the sums by `num_pixels`, truncated toward zero and converted to `uint8_t`. -/
def ApplyImageSplit.average (image_ : Image) (original_width original_height : Int)
    (block_start_x block_start_y block_end_x block_end_y : Int) : Pixel :=
  let num_pixels := ApplyImageSplit.sum image_ original_width original_height
    block_start_x block_start_y block_end_x block_end_y (fun _ => 1)
  { r := toUInt8 (Int.tdiv (ApplyImageSplit.sum image_ original_width original_height
      block_start_x block_start_y block_end_x block_end_y (fun pixel => pixel.r)) num_pixels)
    g := toUInt8 (Int.tdiv (ApplyImageSplit.sum image_ original_width original_height
      block_start_x block_start_y block_end_x block_end_y (fun pixel => pixel.g)) num_pixels)
    b := toUInt8 (Int.tdiv (ApplyImageSplit.sum image_ original_width original_height
      block_start_x block_start_y block_end_x block_end_y (fun pixel => pixel.b)) num_pixels) }

/-- Body of the loops over the cells (lines 299-337), for the cell of row `i` and
column `j`. -/
def ApplyImageSplit.block (block_size original_width original_height : Int) (image_ : Image)
    (i j : Int) : Except Failure Image := do
  let block_start_x := j * block_size
  let block_start_y := i * block_size
  let block_end_x := block_start_x + block_size
  let block_end_y := block_start_y + block_size
  let sum_r := ApplyImageSplit.sum image_ original_width original_height
    block_start_x block_start_y block_end_x block_end_y (fun pixel => pixel.r)
  let sum_g := ApplyImageSplit.sum image_ original_width original_height
    block_start_x block_start_y block_end_x block_end_y (fun pixel => pixel.g)
  let sum_b := ApplyImageSplit.sum image_ original_width original_height
    block_start_x block_start_y block_end_x block_end_y (fun pixel => pixel.b)
  let num_pixels := ApplyImageSplit.sum image_ original_width original_height
    block_start_x block_start_y block_end_x block_end_y (fun _ => 1)
  let avg_r ← int_div sum_r num_pixels
  let avg_g ← int_div sum_g num_pixels
  let avg_b ← int_div sum_b num_pixels
  pure (ApplyImageSplit.fill image_ original_width original_height
    block_start_x block_start_y block_end_x block_end_y
    { r := toUInt8 avg_r, g := toUInt8 avg_g, b := toUInt8 avg_b })

/-- ImageChanger::ApplyImageSplit. -/
def ApplyImageSplit (block_size : Int) (image_ : Image) : Except Failure Image := do
  let original_height : Int := image_.length
  let original_width : Int := (image_.getD 0 []).length
  let num_blocks_width ← CeilDiv original_width block_size
  let num_blocks_height ← CeilDiv original_height block_size
  let new_width := num_blocks_width * block_size
  let new_height := num_blocks_height * block_size
  let image_ ← Failure.lift (vector_resize image_ new_height [])
  let image_ ← Failure.lift (image_.mapM (fun row => vector_resize row new_width default))
  (intRange 0 num_blocks_height).foldlM (fun (image_ : Image) (i : Int) =>
    (intRange 0 num_blocks_width).foldlM (fun (image_ : Image) (j : Int) =>
      ApplyImageSplit.block block_size original_width original_height image_ i j) image_) image_

/-! ## Theorems: streams and headers -/

theorem istream_read_of_le (n : Nat) (buf file : List Nat) (hn : n ≤ file.length)
    (hb : buf.length ≤ n) : istream_read n buf file = (file.take n, file.drop n) := by
  unfold istream_read
  have h1 : (file.take n).length = n := by simp [hn]
  rw [h1, List.drop_eq_nil_of_le hb, List.append_nil]

theorem getD_take_of_lt (l : List Nat) (n i : Nat) (h : i < n) :
    (l.take n).getD i 0 = l.getD i 0 := by
  simp [List.getD_eq_getElem?_getD, List.getElem?_take, h]

theorem bitmapHeader_ofBytes_take (l : List Nat) :
    BitmapHeader.ofBytes (l.take 14) = BitmapHeader.ofBytes l := by
  simp [BitmapHeader.ofBytes, uint32At, getD_take_of_lt]

theorem dibHeader_ofBytes_take (l : List Nat) :
    DibHeader.ofBytes (l.take 40) = DibHeader.ofBytes l := by
  simp [DibHeader.ofBytes, uint32At, uint16At, int32At, getD_take_of_lt]

/-- On a file that holds both headers, ReadImage decodes the headers found in its first 54
bytes and reads the pixel data from offset 54 on. -/
theorem ReadImage_of_length (uninit file : List Nat) (hlen : 54 ≤ file.length) :
    ReadImage uninit file
      = ReadImage.decode (BitmapHeader.ofBytes file) (DibHeader.ofBytes (file.drop 14))
          (file.drop 54) := by
  unfold ReadImage
  rw [istream_read_of_le _ _ _ (by simp [sizeofBitmapHeader]; omega)
    (by simp [sizeofBitmapHeader])]
  simp only
  rw [istream_read_of_le _ _ _ (by simp [sizeofBitmapHeader, sizeofDibHeader]; omega)
    (by simp [sizeofDibHeader])]
  simp only [sizeofBitmapHeader, sizeofDibHeader, bitmapHeader_ofBytes_take,
    dibHeader_ofBytes_take, List.drop_drop]

theorem signature_of_take (file : List Nat) (hlen : 2 ≤ file.length) :
    ((BitmapHeader.ofBytes file).signature.1 = 66 ∧ (BitmapHeader.ofBytes file).signature.2 = 77)
      ↔ file.take 2 = [66, 77] := by
  match file, hlen with
  | b0 :: b1 :: rest, _ => simp [BitmapHeader.ofBytes]

/-! ## Theorems: the bytes WriteImage writes -/

theorem range_map_getD {α : Type} (l : List α) (d : α) :
    (List.range l.length).map (fun i => l.getD i d) = l := by
  apply List.ext_getElem
  · simp
  · intro i h1 h2
    simp [List.getD_eq_getElem?_getD, h2]

theorem range_flatMap_getD {α β : Type} (l : List α) (d : α) (f : α → List β) :
    (List.range l.length).flatMap (fun i => f (l.getD i d)) = l.flatMap f := by
  conv_rhs => rw [← range_map_getD l d]
  rw [List.flatMap_map]

theorem range_reverse_flatMap_getD {α β : Type} (l : List α) (d : α) (f : α → List β) :
    (List.range l.length).reverse.flatMap (fun i => f (l.getD i d)) = l.reverse.flatMap f := by
  conv_rhs => rw [← range_map_getD l d]
  rw [← List.map_reverse, List.flatMap_map]

theorem length_flatMap_const {α β : Type} (l : List α) (f : α → List β) (c : Nat)
    (h : ∀ a ∈ l, (f a).length = c) : (l.flatMap f).length = l.length * c := by
  induction l with
  | nil => simp
  | cons a l ih =>
    rw [List.flatMap_cons, List.length_append, h a (List.mem_cons_self _ _),
      ih (fun b hb => h b (List.mem_cons_of_mem _ hb)), List.length_cons]
    ring

theorem WriteImage.headers_length (w h : Nat) : (WriteImage.headers w h).length = 54 := rfl

theorem WriteImage.row_eq (image_ : Image) (padding_size y : Nat) :
    WriteImage.row image_ (image_.getD y []).length padding_size y
      = (image_.getD y []).flatMap Pixel.toBytes ++ List.replicate padding_size 0 := by
  unfold WriteImage.row getPixel
  rw [range_flatMap_getD (image_.getD y []) default Pixel.toBytes]

theorem IsRect.getD_length {image : Image} {w h : Nat} (hr : IsRect image w h) (y : Nat)
    (hy : y < h) : (image.getD y []).length = w := by
  obtain ⟨hl, hrow⟩ := hr
  have hy2 : y < image.length := by omega
  rw [List.getD_eq_getElem _ _ hy2]
  exact hrow _ (List.getElem_mem _)

theorem IsRect.widthOf_eq {image : Image} {w h : Nat} (hr : IsRect image w h) (hh : 0 < h) :
    widthOf image = w := hr.getD_length 0 hh

theorem toInt32_of_lt (n : Nat) (h : n < 2 ^ 31) : toInt32 (n : Int) = n := by
  unfold toInt32
  omega

/-- The output of WriteImage starts with the 54 header bytes, whatever the image. -/
theorem WriteImage_take (image_ : Image) :
    (WriteImage image_).take 54 = WriteImage.headers (widthOf image_) (heightOf image_) := by
  unfold WriteImage widthOf heightOf
  exact List.take_left' (WriteImage.headers_length _ _)

/-- For a rectangular image with fewer than `2 ^ 31` rows, WriteImage writes the headers, then
the rows from the last to the first, each as its pixels followed by the padding. -/
theorem WriteImage_eq (image_ : Image) (w h : Nat) (hr : IsRect image_ w h) (hh : 0 < h)
    (hh2 : h < 2 ^ 31) :
    WriteImage image_ = WriteImage.headers w h
      ++ image_.reverse.flatMap (fun row =>
          row.flatMap Pixel.toBytes ++ List.replicate ((4 - w * 3 % 4) % 4) 0) := by
  have hw : (image_.getD 0 []).length = w := hr.getD_length 0 hh
  have hl : image_.length = h := hr.1
  unfold WriteImage
  simp only [hw, hl]
  rw [toInt32_of_lt h hh2]
  have : ((h : Int) - 1 + 1).toNat = image_.length := by omega
  rw [this]
  congr 1
  rw [← range_reverse_flatMap_getD image_ []]
  apply List.flatMap_congr
  intro y hy
  have hy2 : y < h := by simpa [hl] using hy
  have := WriteImage.row_eq image_ ((4 - w * 3 % 4) % 4) y
  rw [hr.getD_length y hy2] at this
  exact this

theorem WriteImage_length (image_ : Image) (w h : Nat) (hr : IsRect image_ w h) (hh : 0 < h)
    (hh2 : h < 2 ^ 31) : (WriteImage image_).length = 54 + h * paddedRowSize w := by
  rw [WriteImage_eq image_ w h hr hh hh2, List.length_append, WriteImage.headers_length,
    length_flatMap_const _ _ (paddedRowSize w), List.length_reverse, hr.1]
  intro row hrow
  have hlen : row.length = w := hr.2 row (List.mem_reverse.mp hrow)
  rw [List.length_append, List.length_replicate,
    length_flatMap_const row Pixel.toBytes 3 (fun _ _ => rfl), hlen]
  rfl

theorem bitmapHeader_ofBytes_toBytes (h : BitmapHeader) (rest : List Nat) :
    BitmapHeader.ofBytes (h.toBytes ++ rest)
      = { signature := h.signature
          file_size := h.file_size % 2 ^ 32
          reserved := h.reserved % 2 ^ 32
          data_offset := h.data_offset % 2 ^ 32 } := by
  simp only [BitmapHeader.ofBytes, BitmapHeader.toBytes, uint32At, bytesOfUInt32,
    List.cons_append, List.nil_append, List.getD_cons_zero, List.getD_cons_succ,
    BitmapHeader.mk.injEq, true_and]
  refine ⟨?_, ?_, ?_⟩ <;> omega

theorem toInt32_toNat_emod (v : Int) :
    toInt32 (((v % 2 ^ 32).toNat % 256 + 256 * ((v % 2 ^ 32).toNat / 256 % 256)
      + 65536 * ((v % 2 ^ 32).toNat / 65536 % 256)
      + 16777216 * ((v % 2 ^ 32).toNat / 16777216 % 256) : Nat) : Int) = toInt32 v := by
  unfold toInt32
  omega

theorem dibHeader_ofBytes_toBytes (h : DibHeader) (rest : List Nat) :
    DibHeader.ofBytes (h.toBytes ++ rest)
      = { header_size := h.header_size % 2 ^ 32
          width := toInt32 h.width
          height := toInt32 h.height
          color_plane_count := h.color_plane_count % 2 ^ 16
          bits_per_pixel := h.bits_per_pixel % 2 ^ 16
          compression_method := h.compression_method % 2 ^ 32
          data_size := h.data_size % 2 ^ 32
          horizontal_resolution := toInt32 h.horizontal_resolution
          vertical_resolution := toInt32 h.vertical_resolution
          color_count := h.color_count % 2 ^ 32
          important_color_count := h.important_color_count % 2 ^ 32 } := by
  simp only [DibHeader.ofBytes, DibHeader.toBytes, uint32At, uint16At, int32At, bytesOfUInt32,
    bytesOfUInt16, bytesOfInt32,
    List.cons_append, List.nil_append, List.getD_cons_zero, List.getD_cons_succ,
    DibHeader.mk.injEq, toInt32_toNat_emod, true_and]
  refine ⟨?_, ?_, ?_, ?_, ?_, ?_, ?_⟩ <;> omega


/-- The header objects WriteImage builds for a `width` x `height` image, as values. -/
theorem WriteImage.headers_eq (w h : Nat) :
    WriteImage.headers w h
      = BitmapHeader.toBytes
          { signature := (66, 77)
            file_size := (54 + h * paddedRowSize w) % 2 ^ 32
            reserved := 0
            data_offset := 54 }
        ++ DibHeader.toBytes
          { header_size := 40
            width := toInt32 w
            height := toInt32 h
            color_plane_count := 1
            bits_per_pixel := 24
            compression_method := 0
            data_size := (h * paddedRowSize w) % 2 ^ 32
            horizontal_resolution := 2835
            vertical_resolution := 2835
            color_count := 0
            important_color_count := 0 } := by
  simp only [WriteImage.headers, toUInt32, sizeofBitmapHeader, sizeofDibHeader, Pixels,
    paddedRowSize, Nat.mul_comm h]
  rfl

theorem bitmapHeader_toBytes_length (h : BitmapHeader) : h.toBytes.length = 14 := rfl

/-- The two headers read back from the output of WriteImage, for every image: the size
fields hold their value modulo `2 ^ 32`, width and height their two's complement reading. -/
theorem WriteImage_headers_decode (image_ : Image) :
    BitmapHeader.ofBytes (WriteImage image_)
        = { signature := (66, 77)
            file_size := (54 + heightOf image_ * paddedRowSize (widthOf image_)) % 2 ^ 32
            reserved := 0
            data_offset := 54 }
      ∧ DibHeader.ofBytes ((WriteImage image_).drop 14)
        = { header_size := 40
            width := toInt32 (widthOf image_)
            height := toInt32 (heightOf image_)
            color_plane_count := 1
            bits_per_pixel := 24
            compression_method := 0
            data_size := (heightOf image_ * paddedRowSize (widthOf image_)) % 2 ^ 32
            horizontal_resolution := 2835
            vertical_resolution := 2835
            color_count := 0
            important_color_count := 0 } := by
  have hE : ∀ body, WriteImage.headers (widthOf image_) (heightOf image_) ++ body
      = BitmapHeader.toBytes
          { signature := (66, 77)
            file_size := (54 + heightOf image_ * paddedRowSize (widthOf image_)) % 2 ^ 32
            reserved := 0
            data_offset := 54 }
        ++ (DibHeader.toBytes
          { header_size := 40
            width := toInt32 (widthOf image_)
            height := toInt32 (heightOf image_)
            color_plane_count := 1
            bits_per_pixel := 24
            compression_method := 0
            data_size := (heightOf image_ * paddedRowSize (widthOf image_)) % 2 ^ 32
            horizontal_resolution := 2835
            vertical_resolution := 2835
            color_count := 0
            important_color_count := 0 } ++ body) := by
    intro body
    rw [WriteImage.headers_eq, List.append_assoc]
  unfold WriteImage
  simp only
  rw [show (image_.getD 0 []).length = widthOf image_ from rfl,
    show image_.length = heightOf image_ from rfl, hE]
  constructor
  · rw [bitmapHeader_ofBytes_toBytes]
    simp
  · rw [List.drop_left' (bitmapHeader_toBytes_length _), dibHeader_ofBytes_toBytes]
    simp [toInt32]

theorem widthOf_replicate (n : Nat) (row : List Pixel) (h : 0 < n) :
    widthOf (List.replicate n row) = row.length := by
  cases n with
  | zero => omega
  | succ k => simp only [widthOf, List.replicate_succ, List.getD_cons_zero]

theorem heightOf_replicate (n : Nat) (row : List Pixel) :
    heightOf (List.replicate n row) = n := List.length_replicate _ _

/-! ## Theorems: the loops of ReadImage -/

theorem readPixel_cons (y x : Nat) (I : Image) (p : Pixel) (rest : List Nat) :
    ReadImage.readPixel y (I, p.toBytes ++ rest) x = (setPixel I y x p, rest) := by
  simp [ReadImage.readPixel, istream_read, sizeofPixel, Pixel.toBytes, Pixel.ofBytes]

theorem set_getD_self {α : Type} (l : List α) (i : Nat) (d : α) :
    l.set i (l.getD i d) = l := by
  apply List.ext_getElem
  · simp
  · intro j h1 h2
    rw [List.getElem_set]
    split
    · next hij => subst hij; exact List.getD_eq_getElem _ _ h2
    · rfl

theorem getD_set_self {α : Type} (l : List α) (i : Nat) (a d : α) (h : i < l.length) :
    (l.set i a).getD i d = a := by
  simp [List.getD_eq_getElem?_getD, h]

theorem readRow_pixels_aux (y : Nat) (row : List Pixel) (I : Image) (rest : List Nat)
    (hy : y < I.length) (hlen : (I.getD y []).length = row.length) (k : Nat)
    (hk : k ≤ row.length) :
    (List.range k).foldl (ReadImage.readPixel y) (I, row.flatMap Pixel.toBytes ++ rest)
      = (I.set y (row.take k ++ (I.getD y []).drop k),
          (row.drop k).flatMap Pixel.toBytes ++ rest) := by
  induction k with
  | zero =>
    simp only [List.range_zero, List.foldl_nil, List.take_zero, List.drop_zero, List.nil_append]
    rw [set_getD_self I y []]
  | succ k ih =>
    have hk2 : k < row.length := hk
    rw [List.range_succ, List.foldl_append, ih (by omega)]
    simp only [List.foldl_cons, List.foldl_nil]
    rw [List.drop_eq_getElem_cons hk2, List.flatMap_cons, List.append_assoc, readPixel_cons]
    congr 1
    unfold setPixel
    rw [getD_set_self _ _ _ _ hy, List.set_set]
    congr 1
    have h1 : (row.take k).length = k := by simp; omega
    rw [List.set_append_right _ _ (by omega), h1, Nat.sub_self,
      List.drop_eq_getElem_cons (by omega : k < (I.getD y []).length), List.set_cons_zero,
      ← List.take_concat_get _ _ hk2, List.concat_eq_append, List.append_assoc]
    rfl

theorem readRow_pixels (y : Nat) (row : List Pixel) (I : Image) (rest : List Nat)
    (hy : y < I.length) (hlen : (I.getD y []).length = row.length) :
    (List.range row.length).foldl (ReadImage.readPixel y) (I, row.flatMap Pixel.toBytes ++ rest)
      = (I.set y row, rest) := by
  rw [readRow_pixels_aux y row I rest hy hlen row.length (Nat.le_refl _),
    List.drop_eq_nil_of_le (Nat.le_of_eq hlen), List.take_length, List.drop_length,
    List.append_nil, List.flatMap_nil, List.nil_append]

theorem getD_set_ne {α : Type} (l : List α) (i j : Nat) (a d : α) (h : i ≠ j) :
    (l.set i a).getD j d = l.getD j d := by
  simp [List.getD_eq_getElem?_getD, List.getElem?_set_ne h]

theorem drop_set_self {α : Type} (l : List α) (n : Nat) (a : α) (h : n < l.length) :
    (l.set n a).drop n = a :: l.drop (n + 1) := by
  rw [List.drop_set, if_neg (by omega), Nat.sub_self, List.drop_eq_getElem_cons h,
    List.set_cons_zero]

/-- C2. For every byte stream of at least 54 bytes whose first two bytes are not the ASCII
tag 'B' (66), 'M' (77), ReadImage fails with the FormatError exception and so produces no
image, whatever the other bytes of the stream are (the remaining header fields included). -/
theorem ReadImage_bad_signature (uninit file : List Nat) (hlen : 54 ≤ file.length)
    (hsig : file.take 2 ≠ [66, 77]) :
    ReadImage uninit file = Except.error FormatError := by
  rw [ReadImage_of_length uninit file hlen]
  have h := (signature_of_take file (by omega)).not.mpr hsig
  have h2 : (BitmapHeader.ofBytes file).signature.1 ≠ 66
      ∨ (BitmapHeader.ofBytes file).signature.2 ≠ 77 := by
    by_cases h0 : (BitmapHeader.ofBytes file).signature.1 = 66
    · right; intro h1; exact h ⟨h0, h1⟩
    · left; exact h0
  unfold ReadImage.decode
  rw [if_pos h2]
  rfl

/-- Witness of C2: 54 bytes that start with 'B', 'A' and whose bits-per-pixel and compression
fields are invalid too (8 and 1). -/
theorem ReadImage_bad_signature_witness :
    ReadImage [] ([66, 65] ++ List.replicate 26 0 ++ [8, 0, 1, 0, 0, 0] ++ List.replicate 20 0)
      = Except.error FormatError :=
  ReadImage_bad_signature [] _ (by decide) (by decide)

/-- C3. For every byte stream that holds both headers and starts with the signature 'B', 'M':
if the bits-per-pixel field of the secondary header is not 24 or its compression field is
not 0, ReadImage fails with the UnsupportedFormatError exception; that exception differs from
the FormatError of a bad signature (both are `std::runtime_error`, with different messages);
and if bits-per-pixel is 24 and compression is 0, ReadImage raises neither of the two. -/
theorem ReadImage_unsupported_format (uninit file : List Nat) (hlen : 54 ≤ file.length)
    (hsig : file.take 2 = [66, 77]) :
    ((DibHeader.ofBytes (file.drop 14)).bits_per_pixel ≠ 24
        ∨ (DibHeader.ofBytes (file.drop 14)).compression_method ≠ 0 →
      ReadImage uninit file = Except.error UnsupportedFormatError)
    ∧ UnsupportedFormatError ≠ FormatError
    ∧ ((DibHeader.ofBytes (file.drop 14)).bits_per_pixel = 24 →
        (DibHeader.ofBytes (file.drop 14)).compression_method = 0 →
        ReadImage uninit file ≠ Except.error FormatError
          ∧ ReadImage uninit file ≠ Except.error UnsupportedFormatError) := by
  have hs := (signature_of_take file (by omega)).mpr hsig
  have h1 : ¬ ((BitmapHeader.ofBytes file).signature.1 ≠ 66
      ∨ (BitmapHeader.ofBytes file).signature.2 ≠ 77) := by
    rintro (h | h)
    · exact h hs.1
    · exact h hs.2
  rw [ReadImage_of_length uninit file hlen]
  refine ⟨?_, by decide, ?_⟩
  · intro h
    unfold ReadImage.decode
    rw [if_neg h1, if_pos (by simpa [Pixels] using h)]
    rfl
  · intro hb hc
    have h2 : ¬ ((DibHeader.ofBytes (file.drop 14)).bits_per_pixel ≠ Pixels
        ∨ (DibHeader.ofBytes (file.drop 14)).compression_method ≠ 0) := by
      rw [hb, hc]; decide
    unfold ReadImage.decode
    rw [if_neg h1, if_neg h2]
    split
    · constructor <;> intro h <;> cases h
    · constructor <;> intro h <;> cases h

/-- Witness of C3: the headers of a 1x1 bitmap with 8 bits per pixel are rejected with
UnsupportedFormatError. -/
theorem ReadImage_unsupported_format_witness :
    ReadImage [] ([66, 77] ++ List.replicate 16 0 ++ [1, 0, 0, 0, 1, 0, 0, 0, 1, 0, 8, 0]
        ++ List.replicate 24 0)
      = Except.error UnsupportedFormatError :=
  (ReadImage_unsupported_format [] _ (by decide) (by decide)).1 (by decide)

/-! ## Theorems: the headers WriteImage writes (C4) -/

theorem paddedRowSize_spec (w : Nat) :
    paddedRowSize w % 4 = 0 ∧ 3 * w ≤ paddedRowSize w ∧ paddedRowSize w < 3 * w + 4 := by
  unfold paddedRowSize
  omega

theorem IsRect.replicate (w h : Nat) (p : Pixel) :
    IsRect (List.replicate h (List.replicate w p)) w h := by
  refine ⟨List.length_replicate _ _, ?_⟩
  intro row hrow
  rw [List.eq_of_mem_replicate hrow, List.length_replicate]

/-- C4 does not hold as stated: for the image of 65536 x 32768 black pixels (width and height positive)
the file-size field of the header WriteImage writes holds 2147483702, while 54 plus the
padded pixel data size is 6442450998: the field is a `uint32_t` and cannot hold it. -/
theorem WriteImage_file_size_overflow :
    0 < widthOf (List.replicate 32768 (List.replicate 65536 (⟨0, 0, 0⟩ : Pixel)))
      ∧ 0 < heightOf (List.replicate 32768 (List.replicate 65536 (⟨0, 0, 0⟩ : Pixel)))
      ∧ (BitmapHeader.ofBytes
          (WriteImage (List.replicate 32768 (List.replicate 65536 ⟨0, 0, 0⟩)))).file_size
          = 2147483702
      ∧ 54 + heightOf (List.replicate 32768 (List.replicate 65536 (⟨0, 0, 0⟩ : Pixel)))
            * paddedRowSize
                (widthOf (List.replicate 32768 (List.replicate 65536 (⟨0, 0, 0⟩ : Pixel))))
          = 6442450998 := by
  rw [(WriteImage_headers_decode _).1, widthOf_replicate _ _ (by decide), heightOf_replicate,
    List.length_replicate]
  decide

/-- C4, amended. For every image with width > 0 and height > 0 whose file size, 54 plus the
padded pixel data size `height * paddedRowSize width`, is below `2 ^ 32`, the first 54 bytes
WriteImage writes are the packed little-endian bytes of the two headers with: signature
'B', 'M'; file size = 54 + padded pixel data size; reserved = 0; data offset = 54; header
size = 40; the width and the height of the image; colour planes = 1; bits-per-pixel = 24;
compression = 0; data size = height * padded row size; horizontal and vertical resolution
= 2835; colour count = 0; important colour count = 0. Reading the bytes back as headers
gives exactly these field values. -/
theorem WriteImage_header_fields (image_ : Image) (hw : 0 < widthOf image_)
    (hh : 0 < heightOf image_)
    (hsize : 54 + heightOf image_ * paddedRowSize (widthOf image_) < 2 ^ 32) :
    (WriteImage image_).take 54
        = BitmapHeader.toBytes
            { signature := (66, 77)
              file_size := 54 + heightOf image_ * paddedRowSize (widthOf image_)
              reserved := 0
              data_offset := 54 }
          ++ DibHeader.toBytes
            { header_size := 40
              width := widthOf image_
              height := heightOf image_
              color_plane_count := 1
              bits_per_pixel := 24
              compression_method := 0
              data_size := heightOf image_ * paddedRowSize (widthOf image_)
              horizontal_resolution := 2835
              vertical_resolution := 2835
              color_count := 0
              important_color_count := 0 }
      ∧ BitmapHeader.ofBytes (WriteImage image_)
        = { signature := (66, 77)
            file_size := 54 + heightOf image_ * paddedRowSize (widthOf image_)
            reserved := 0
            data_offset := 54 }
      ∧ DibHeader.ofBytes ((WriteImage image_).drop 14)
        = { header_size := 40
            width := widthOf image_
            height := heightOf image_
            color_plane_count := 1
            bits_per_pixel := 24
            compression_method := 0
            data_size := heightOf image_ * paddedRowSize (widthOf image_)
            horizontal_resolution := 2835
            vertical_resolution := 2835
            color_count := 0
            important_color_count := 0 } := by
  have hs := paddedRowSize_spec (widthOf image_)
  have hmul : heightOf image_ * 3 ≤ heightOf image_ * paddedRowSize (widthOf image_) :=
    Nat.mul_le_mul_left _ (by omega)
  have hmul2 : paddedRowSize (widthOf image_)
      ≤ heightOf image_ * paddedRowSize (widthOf image_) := Nat.le_mul_of_pos_left _ hh
  have h1 : (54 + heightOf image_ * paddedRowSize (widthOf image_)) % 2 ^ 32
      = 54 + heightOf image_ * paddedRowSize (widthOf image_) := Nat.mod_eq_of_lt hsize
  have h2 : (heightOf image_ * paddedRowSize (widthOf image_)) % 2 ^ 32
      = heightOf image_ * paddedRowSize (widthOf image_) := Nat.mod_eq_of_lt (by omega)
  have h3 : toInt32 (widthOf image_) = widthOf image_ := toInt32_of_lt _ (by omega)
  have h4 : toInt32 (heightOf image_) = heightOf image_ := toInt32_of_lt _ (by omega)
  have hd := WriteImage_headers_decode image_
  rw [h1, h2, h3, h4] at hd
  refine ⟨?_, hd.1, hd.2⟩
  rw [WriteImage_take, WriteImage.headers_eq, h1, h2, h3, h4]

/-- Witness of C4: the 54 header bytes of the 3x2 test image (row padding 3, file size 78). -/
theorem WriteImage_header_fields_witness :
    (WriteImage (sampleImage 3 2)).take 54
      = [66, 77, 78, 0, 0, 0, 0, 0, 0, 0, 54, 0, 0, 0,
         40, 0, 0, 0, 3, 0, 0, 0, 2, 0, 0, 0, 1, 0, 24, 0, 0, 0, 0, 0, 24, 0, 0, 0,
         19, 11, 0, 0, 19, 11, 0, 0, 0, 0, 0, 0, 0, 0, 0, 0] :=
  (WriteImage_header_fields (sampleImage 3 2) (by decide) (by decide) (by decide)).1

/-! ## Theorems: the pixel data WriteImage writes (C5) -/

/-- C5 does not hold as stated: for the (rectangular) image of 32768 x 65536 black pixels WriteImage
writes 6442450998 bytes, and the file-size field of its header holds 2147483702. -/
theorem WriteImage_length_exceeds_file_size :
    IsRect (List.replicate 65536 (List.replicate 32768 (⟨0, 0, 0⟩ : Pixel))) 32768 65536
      ∧ (WriteImage (List.replicate 65536 (List.replicate 32768 ⟨0, 0, 0⟩))).length
          = 6442450998
      ∧ (BitmapHeader.ofBytes
          (WriteImage (List.replicate 65536 (List.replicate 32768 ⟨0, 0, 0⟩)))).file_size
          = 2147483702 := by
  have hr := IsRect.replicate 32768 65536 ⟨0, 0, 0⟩
  refine ⟨hr, ?_, ?_⟩
  · rw [WriteImage_length _ 32768 65536 hr (by decide) (by decide)]
    decide
  · rw [(WriteImage_headers_decode _).1, hr.widthOf_eq (by decide),
      show heightOf (List.replicate 65536 (List.replicate 32768 (⟨0, 0, 0⟩ : Pixel))) = 65536
        from hr.1]
    decide

/-- C5, amended. For every rectangular image of width w > 0 and height h > 0 whose file
size `54 + h * paddedRowSize w` is below `2 ^ 32`: the bytes WriteImage writes after the 54
header bytes are the h rows from the last (bottom) to the first (top), each row being its w
pixels as (blue, green, red) byte triples followed by `(4 - 3w mod 4) mod 4` zero bytes;
every stored row has `paddedRowSize w` bytes, the smallest multiple of 4 that is >= 3w; the
output has `54 + h * paddedRowSize w` bytes, which is the value of the file-size field of
the header; and for a 4x2 image there is no padding and the output has 78 bytes. -/
theorem WriteImage_pixel_data (image_ : Image) (w h : Nat) (hr : IsRect image_ w h)
    (hw : 0 < w) (hh : 0 < h) (hsize : 54 + h * paddedRowSize w < 2 ^ 32) :
    (WriteImage image_).drop 54
        = image_.reverse.flatMap (fun row =>
            row.flatMap (fun p => [p.b, p.g, p.r]) ++ List.replicate ((4 - 3 * w % 4) % 4) 0)
      ∧ (∀ row ∈ image_,
          (row.flatMap (fun p => [p.b, p.g, p.r])
            ++ List.replicate ((4 - 3 * w % 4) % 4) 0).length = paddedRowSize w)
      ∧ paddedRowSize w % 4 = 0 ∧ 3 * w ≤ paddedRowSize w
      ∧ (∀ m, m % 4 = 0 → 3 * w ≤ m → paddedRowSize w ≤ m)
      ∧ (WriteImage image_).length = 54 + h * paddedRowSize w
      ∧ (BitmapHeader.ofBytes (WriteImage image_)).file_size = (WriteImage image_).length
      ∧ (w = 4 → h = 2 → (4 - 3 * w % 4) % 4 = 0 ∧ (WriteImage image_).length = 78) := by
  have hs := paddedRowSize_spec w
  have hmul : h * 3 ≤ h * paddedRowSize w := Nat.mul_le_mul_left _ (by omega)
  have hh2 : h < 2 ^ 31 := by omega
  have hlen := WriteImage_length image_ w h hr hh hh2
  have hfs : (BitmapHeader.ofBytes (WriteImage image_)).file_size
      = 54 + h * paddedRowSize w := by
    rw [(WriteImage_headers_decode image_).1, hr.widthOf_eq hh, show heightOf image_ = h from hr.1]
    exact Nat.mod_eq_of_lt hsize
  refine ⟨?_, ?_, hs.1, hs.2.1, ?_, hlen, ?_, ?_⟩
  · rw [WriteImage_eq image_ w h hr hh hh2, List.drop_left' (WriteImage.headers_length w h),
      Nat.mul_comm 3 w]
    rfl
  · intro row hrow
    rw [List.length_append, List.length_replicate,
      length_flatMap_const row (fun p => [p.b, p.g, p.r]) 3 (fun _ _ => rfl), hr.2 row hrow]
    unfold paddedRowSize
    omega
  · intro m hm1 hm2
    omega
  · rw [hfs, hlen]
  · intro h4 h2
    subst h4 h2
    refine ⟨by decide, ?_⟩
    rw [hlen]
    decide

/-- Witness of C5: the 4x2 image of alternating black and white pixels is written as 54
header bytes and two unpadded rows of 12 bytes, the bottom row first: 78 bytes. -/
theorem WriteImage_pixel_data_witness :
    (WriteImage checkerboard).drop 54
        = [255, 255, 255, 0, 0, 0, 255, 255, 255, 0, 0, 0,
           0, 0, 0, 255, 255, 255, 0, 0, 0, 255, 255, 255]
      ∧ (WriteImage checkerboard).length = 78 :=
  ⟨(WriteImage_pixel_data checkerboard 4 2 (by decide) (by decide) (by decide)
      (by decide)).1,
   ((WriteImage_pixel_data checkerboard 4 2 (by decide) (by decide) (by decide)
      (by decide)).2.2.2.2.2.2.2 rfl rfl).2⟩

/-! ## Theorems: decoding what was encoded (C1) -/

theorem vector_resize_of_le {α : Type} (v : List α) (n : Int) (fill : α) (h0 : 0 ≤ n)
    (hn : n ≤ v.length) : vector_resize v n fill = Except.ok (v.take n.toNat) := by
  unfold vector_resize
  rw [if_neg (by omega)]
  have : n.toNat - v.length = 0 := by omega
  rw [this]
  simp [pure, Except.pure]

theorem mapM_ok {α β : Type} (f : α → Except Exception β) (g : α → β) (l : List α)
    (h : ∀ a ∈ l, f a = Except.ok (g a)) : l.mapM f = Except.ok (l.map g) := by
  induction l with
  | nil => rfl
  | cons a l ih =>
    rw [List.mapM_cons, h a (List.mem_cons_self _ _),
      ih (fun b hb => h b (List.mem_cons_of_mem _ hb))]
    rfl

theorem ApplyCrop_eq (width height : Int) (image_ : Image) (W H : Nat)
    (hr : IsRect image_ W H) (hH : 0 < H) (hw : 0 ≤ width) (hh : 0 ≤ height) :
    ApplyCrop width height image_
      = Except.ok ((image_.take (min height H).toNat).map
          (fun row => row.take (min width W).toNat)) := by
  unfold ApplyCrop
  have hW : (image_.getD 0 []).length = W := hr.getD_length 0 hH
  simp only [hW, hr.1]
  rw [vector_resize_of_le image_ _ [] (by omega) (by rw [hr.1]; omega)]
  simp only [bind, Except.bind]
  apply mapM_ok
  intro row hrow
  have hrow2 : row.length = W := hr.2 row (List.mem_of_mem_take hrow)
  exact vector_resize_of_le row _ default (by omega) (by rw [hrow2]; omega)

theorem pixelAt_eq (image : Image) (y x : Nat) :
    pixelAt image y x = (image[y]?).bind (fun row => row[x]?) := by
  unfold pixelAt
  rw [List.getD_eq_getElem?_getD]
  cases image[y]? <;> simp

/-- C6. For every rectangular image of width W > 0 and height H > 0 and all crop parameters
w >= 0, h >= 0, ApplyCrop(w, h) returns, and yields a rectangular image of width min(w, W)
and height min(h, H): it has min(h, H) rows, each of min(w, W) pixels, so that
`image_[0].size()` is min(w, W) when h > 0. Its pixel at every position (x, y) inside the
new bounds equals the original pixel at (x, y); when w >= W and h >= H the image is
unchanged. -/
theorem ApplyCrop_spec (width height : Int) (image_ : Image) (W H : Nat)
    (hr : IsRect image_ W H) (hW : 0 < W) (hH : 0 < H) (hw : 0 ≤ width) (hh : 0 ≤ height) :
    ∃ result, ApplyCrop width height image_ = Except.ok result
      ∧ IsRect result (min width W).toNat (min height H).toNat
      ∧ heightOf result = (min height H).toNat
      ∧ (0 < height → widthOf result = (min width W).toNat)
      ∧ (∀ y x : Nat, (y : Int) < min height H → (x : Int) < min width W →
          pixelAt result y x = pixelAt image_ y x)
      ∧ ((W : Int) ≤ width → (H : Int) ≤ height → result = image_) := by
  have hrect : IsRect ((image_.take (min height H).toNat).map
      (fun row => row.take (min width W).toNat)) (min width W).toNat (min height H).toNat := by
    constructor
    · rw [List.length_map, List.length_take, hr.1]; omega
    · intro row hrow
      rw [List.mem_map] at hrow
      obtain ⟨r, hr1, rfl⟩ := hrow
      rw [List.length_take, hr.2 r (List.mem_of_mem_take hr1)]; omega
  refine ⟨_, ApplyCrop_eq width height image_ W H hr hH hw hh, hrect, hrect.1,
    fun h0 => hrect.widthOf_eq (by omega), ?_, ?_⟩
  · intro y x hy hx
    rw [pixelAt_eq, pixelAt_eq, List.getElem?_map, List.getElem?_take]
    rw [if_pos (by omega)]
    cases image_[y]? with
    | none => rfl
    | some row =>
      simp only [Option.map_some', Option.some_bind]
      rw [List.getElem?_take, if_pos (by omega)]
  · intro h1 h2
    rw [List.take_of_length_le (by rw [hr.1]; omega)]
    conv_rhs => rw [← List.map_id image_]
    apply List.map_congr_left
    intro row hrow
    rw [List.take_of_length_le (by rw [hr.2 row hrow]; omega)]
    rfl


/-- Witness of C6: cropping the 3x2 test image to 2x1, and to 5x7 (which changes nothing). -/
theorem ApplyCrop_spec_witness :
    (∃ result, ApplyCrop 2 1 (sampleImage 3 2) = Except.ok result
      ∧ IsRect result 2 1
      ∧ heightOf result = 1
      ∧ ((0 : Int) < 1 → widthOf result = 2)
      ∧ (∀ y x : Nat, (y : Int) < 1 → (x : Int) < 2 →
          pixelAt result y x = pixelAt (sampleImage 3 2) y x)
      ∧ (((3 : Nat) : Int) ≤ 2 → ((2 : Nat) : Int) ≤ 1 → result = sampleImage 3 2))
    ∧ ApplyCrop 5 7 (sampleImage 3 2) = Except.ok (sampleImage 3 2) :=
  ⟨ApplyCrop_spec 2 1 (sampleImage 3 2) 3 2 (by decide) (by decide) (by decide) (by decide)
      (by decide),
   by
    obtain ⟨result, h1, _, _, _, _, h4⟩ := ApplyCrop_spec 5 7 (sampleImage 3 2) 3 2
      (by decide) (by decide) (by decide) (by decide) (by decide)
    rw [h1, h4 (by decide) (by decide)]⟩

/-! ## Theorems: ApplyNegative (C7) and ApplyCircularBlur (C10) -/

theorem ApplyNegative_pixel_pixel (p : Pixel) (hp : p.InRange) :
    ApplyNegative.pixel (ApplyNegative.pixel p) = p := by
  obtain ⟨hb, hg, hr⟩ := hp
  cases p with
  | mk b g r =>
    simp only [ApplyNegative.pixel, toUInt8, MaxColorValue, Pixel.mk.injEq] at *
    omega

/-- C7. ApplyNegative is an involution: for every image (of 8-bit channels), applying it
twice gives back exactly the original image. -/
theorem ApplyNegative_involutive (image_ : Image) (hc : ChannelsInRange image_) :
    ApplyNegative (ApplyNegative image_) = image_ := by
  unfold ApplyNegative
  rw [List.map_map]
  conv_rhs => rw [← List.map_id image_]
  apply List.map_congr_left
  intro row hrow
  simp only [Function.comp_apply, List.map_map, id_eq]
  conv_rhs => rw [← List.map_id row]
  apply List.map_congr_left
  intro p hp
  exact ApplyNegative_pixel_pixel p (hc row hrow p hp)

/-- Witness of C7: the negative of the negative of the 4x2 black and white image. -/
theorem ApplyNegative_involutive_witness :
    ApplyNegative (ApplyNegative checkerboard) = checkerboard :=
  ApplyNegative_involutive checkerboard (by decide)

theorem foldl_invariant {α β : Type} (P : β → Prop) (f : β → α → β) (l : List α) :
    ∀ b : β, P b → (∀ b a, a ∈ l → P b → P (f b a)) → P (l.foldl f b) := by
  induction l with
  | nil => intro b hb _; exact hb
  | cons a l ih =>
    intro b hb hstep
    rw [List.foldl_cons]
    exact ih _ (hstep b a (List.mem_cons_self _ _) hb)
      (fun b2 a2 ha2 hb2 => hstep b2 a2 (List.mem_cons_of_mem _ ha2) hb2)

theorem mem_intRange (lo hi y : Int) : y ∈ intRange lo hi ↔ lo ≤ y ∧ y < hi := by
  unfold intRange
  rw [List.mem_map]
  constructor
  · rintro ⟨i, hi1, rfl⟩
    rw [List.mem_range] at hi1
    omega
  · rintro ⟨h1, h2⟩
    refine ⟨(y - lo).toNat, ?_, ?_⟩
    · rw [List.mem_range]; omega
    · omega

theorem intRange_eq_nil (lo hi : Int) (h : hi ≤ lo) : intRange lo hi = [] := by
  unfold intRange
  have : (hi - lo).toNat = 0 := by omega
  rw [this]
  rfl

theorem setPixel_isRect (image : Image) (W H y x : Nat) (p : Pixel) (hr : IsRect image W H) :
    IsRect (setPixel image y x p) W H := by
  unfold setPixel
  refine ⟨by rw [List.length_set]; exact hr.1, ?_⟩
  intro row hrow
  rcases List.mem_or_eq_of_mem_set hrow with h | h
  · exact hr.2 row h
  · rw [h, List.length_set]
    by_cases hy : y < image.length
    · rw [List.getD_eq_getElem _ _ hy]
      exact hr.2 _ (List.getElem_mem _)
    · rw [List.set_eq_of_length_le (by omega)] at hrow
      have hlen := hr.2 row hrow
      rw [h, List.length_set] at hlen
      exact hlen

theorem pixelAt_setPixel_ne (image : Image) (y x y0 x0 : Nat) (p : Pixel)
    (h : ¬ (y = y0 ∧ x = x0)) : pixelAt (setPixel image y x p) y0 x0 = pixelAt image y0 x0 := by
  unfold pixelAt setPixel
  by_cases hy : y = y0
  · subst hy
    have hx : x ≠ x0 := fun hx => h ⟨rfl, hx⟩
    by_cases hlen : y < image.length
    · rw [getD_set_self _ _ _ _ hlen, List.getElem?_set_ne hx]
    · rw [List.set_eq_of_length_le (by omega)]
  · rw [getD_set_ne _ _ _ _ _ hy]


theorem foldl_id {α β : Type} (l : List α) (b : β) : l.foldl (fun res _ => res) b = b := by
  induction l with
  | nil => rfl
  | cons a l ih => exact ih

theorem bitLengthAux_spec (fuel : Nat) :
    ∀ n, n ≤ fuel → n < 2 ^ bitLengthAux fuel n
      ∧ (0 < n → 2 ^ bitLengthAux fuel n ≤ 2 * n) := by
  induction fuel with
  | zero =>
    intro n hn
    have : n = 0 := by omega
    subst this
    simp [bitLengthAux]
  | succ fuel ih =>
    intro n hn
    unfold bitLengthAux
    split
    · next h0 => subst h0; simp
    · next h0 =>
      have h := ih (n / 2) (by omega)
      rw [Nat.pow_succ]
      constructor
      · omega
      · intro _
        by_cases h1 : n / 2 = 0
        · have hn1 : n = 1 := by omega
          subst hn1
          simp [bitLengthAux]
          cases fuel <;> simp [bitLengthAux]
        · have := h.2 (by omega)
          omega

theorem bitLength_spec (n : Nat) :
    n < 2 ^ bitLength n ∧ (0 < n → 2 ^ bitLength n ≤ 2 * n) :=
  bitLengthAux_spec n n (Nat.le_refl n)

theorem scale_le (a b c d P : Nat) (h : a * b ≤ c * d) : a * (b * P) ≤ c * (d * P) := by
  rw [← Nat.mul_assoc, ← Nat.mul_assoc]
  exact Nat.mul_le_mul_right _ h

/-- Rounding to 53 bits changes a value by at most the fraction `2 ^ -52` of it. -/
theorem round_units (x : Flt) (he : -56 ≤ x.e) :
    -56 ≤ (Flt.round 53 x).e
      ∧ 2 ^ 52 * (Flt.round 53 x).units ≤ (2 ^ 52 + 1) * x.units
      ∧ (2 ^ 52 - 1) * x.units ≤ 2 ^ 52 * (Flt.round 53 x).units := by
  unfold Flt.round
  simp only
  split
  · refine ⟨he, ?_, ?_⟩
    · exact Nat.mul_le_mul_right _ (by omega)
    · exact Nat.mul_le_mul_right _ (by omega)
  · next hs =>
    obtain ⟨hlt, hge⟩ := bitLength_spec x.m
    have hm0 : 0 < x.m := by
      rcases Nat.eq_zero_or_pos x.m with h | h
      · rw [h] at hs; exact absurd (by decide) hs
      · exact h
    have hge := hge hm0
    generalize hsd : bitLength x.m - 53 = s at *
    have hL : bitLength x.m = s + 53 := by omega
    rw [hL, Nat.pow_add] at hge
    have ha : 0 < 2 ^ s := Nat.pow_pos (by decide)
    generalize hq : x.m / 2 ^ s = q
    generalize hr : x.m % 2 ^ s = r
    have hdm : x.m = 2 ^ s * q + r := by rw [← hq, ← hr]; exact (Nat.div_add_mod _ _).symm
    have hrlt : r < 2 ^ s := by rw [← hr]; exact Nat.mod_lt _ ha
    -- q is at least 2 ^ 52
    have hq52 : 2 ^ 52 ≤ q := by
      by_contra hcon
      have hq' : q + 1 ≤ 2 ^ 52 := by omega
      have h1 : 2 ^ s * (q + 1) ≤ 2 ^ s * 2 ^ 52 := Nat.mul_le_mul_left _ hq'
      have h2 : 2 ^ s * (q + 1) = 2 ^ s * q + 2 ^ s := by ring
      have h3 : 2 ^ s * 2 ^ 53 = 2 * (2 ^ s * 2 ^ 52) := by ring
      omega
    have ht : 2 ^ 52 * 2 ^ s ≤ 2 ^ s * q := by
      rw [Nat.mul_comm (2 ^ 52)]; exact Nat.mul_le_mul_left _ hq52
    have hexp : ∀ k : Nat, (⟨k, x.e + (s : Int)⟩ : Flt).units
        = (2 ^ s * k) * 2 ^ (x.e + 56).toNat := by
      intro k
      unfold Flt.units
      simp only
      have : (x.e + (s : Int) + 56).toNat = s + (x.e + 56).toNat := by omega
      rw [this, Nat.pow_add]
      ring
    have hxu : x.units = (2 ^ s * q + r) * 2 ^ (x.e + 56).toNat := by
      unfold Flt.units; rw [← hdm]
    have hsucc : 2 ^ s * (q + 1) = 2 ^ s * q + 2 ^ s := by ring
    rw [hxu]
    split
    · refine ⟨by simp only; omega, ?_, ?_⟩
      · rw [hexp, hsucc]
        exact scale_le _ _ _ _ _ (by omega)
      · rw [hexp, hsucc]
        exact scale_le _ _ _ _ _ (by omega)
    · refine ⟨by simp only; omega, ?_, ?_⟩
      · rw [hexp]
        exact scale_le _ _ _ _ _ (by omega)
      · rw [hexp]
        exact scale_le _ _ _ _ _ (by omega)


theorem mul_nat_units (c : Flt) (n : Nat) (he : -56 ≤ c.e) :
    -56 ≤ (Flt.mul 53 c ⟨n, 0⟩).e
      ∧ 2 ^ 52 * (Flt.mul 53 c ⟨n, 0⟩).units ≤ (2 ^ 52 + 1) * (c.units * n)
      ∧ (2 ^ 52 - 1) * (c.units * n) ≤ 2 ^ 52 * (Flt.mul 53 c ⟨n, 0⟩).units := by
  have h := round_units ⟨c.m * n, c.e + 0⟩ (by simp only; omega)
  have hu : (⟨c.m * n, c.e + 0⟩ : Flt).units = c.units * n := by
    unfold Flt.units
    simp only [Int.add_zero]
    ring
  rw [hu] at h
  exact h

theorem add_units (a b : Flt) (ha : -56 ≤ a.e) (hb : -56 ≤ b.e) :
    -56 ≤ (Flt.add 53 a b).e
      ∧ 2 ^ 52 * (Flt.add 53 a b).units ≤ (2 ^ 52 + 1) * (a.units + b.units)
      ∧ (2 ^ 52 - 1) * (a.units + b.units) ≤ 2 ^ 52 * (Flt.add 53 a b).units := by
  have h := round_units
    ⟨a.m * 2 ^ (a.e - min a.e b.e).toNat + b.m * 2 ^ (b.e - min a.e b.e).toNat, min a.e b.e⟩
    (by simp only; omega)
  have hu : (⟨a.m * 2 ^ (a.e - min a.e b.e).toNat + b.m * 2 ^ (b.e - min a.e b.e).toNat,
      min a.e b.e⟩ : Flt).units = a.units + b.units := by
    unfold Flt.units
    simp only
    rw [Nat.add_mul, Nat.mul_assoc, Nat.mul_assoc, ← Nat.pow_add, ← Nat.pow_add]
    have h1 : (a.e - min a.e b.e).toNat + (min a.e b.e + 56).toNat = (a.e + 56).toNat := by
      omega
    have h2 : (b.e - min a.e b.e).toNat + (min a.e b.e + 56).toNat = (b.e + 56).toNat := by
      omega
    rw [h1, h2]
  rw [hu] at h
  exact h

theorem toInt_units (x : Flt) (he : -56 ≤ x.e) : Flt.toInt x = ((x.units / 2 ^ 56 : Nat) : Int) := by
  unfold Flt.toInt Flt.units
  split
  · next h0 =>
    have : (x.e + 56).toNat = x.e.toNat + 56 := by omega
    rw [this, Nat.pow_add, ← Nat.mul_assoc, Nat.mul_div_cancel _ (by decide : 0 < 2 ^ 56)]
    push_cast
    rfl
  · next h0 =>
    have h56 : (2 : Nat) ^ 56 = 2 ^ (-x.e).toNat * 2 ^ (x.e + 56).toNat := by
      rw [← Nat.pow_add]
      congr 1
      omega
    rw [h56, Nat.mul_div_mul_right _ _ (Nat.pow_pos (by decide))]
    push_cast
    rfl


/-- The constants of ApplyGrayscale are normalised 53-bit values within half a unit in the
last place of the decimal literals 0.299, 0.587 and 0.114: the `double` values nearest to
them. -/
theorem luma_constants_nearest :
    (2 ^ 52 ≤ ApplyGrayscale.c299.m ∧ ApplyGrayscale.c299.m < 2 ^ 53
        ∧ 299 * 2 ^ 54 ≤ 1000 * ApplyGrayscale.c299.m + 500
        ∧ 1000 * ApplyGrayscale.c299.m ≤ 299 * 2 ^ 54 + 500)
      ∧ (2 ^ 52 ≤ ApplyGrayscale.c587.m ∧ ApplyGrayscale.c587.m < 2 ^ 53
        ∧ 587 * 2 ^ 53 ≤ 1000 * ApplyGrayscale.c587.m + 500
        ∧ 1000 * ApplyGrayscale.c587.m ≤ 587 * 2 ^ 53 + 500)
      ∧ (2 ^ 52 ≤ ApplyGrayscale.c114.m ∧ ApplyGrayscale.c114.m < 2 ^ 53
        ∧ 114 * 2 ^ 56 ≤ 1000 * ApplyGrayscale.c114.m + 500
        ∧ 1000 * ApplyGrayscale.c114.m ≤ 114 * 2 ^ 56 + 500) := by
  decide

theorem c299_units : ApplyGrayscale.c299.units = 21545220617340452 := by decide

theorem c587_units : ApplyGrayscale.c587.units = 42297807700263696 := by decide

theorem c114_units : ApplyGrayscale.c114.units = 8214565720323785 := by decide

/-- The `double` value of the luma expression differs from `(299 r + 587 g + 114 b) / 1000`
by less than `2 ^ -26`. -/
theorem luma_units (r g b : Nat) (hr : r ≤ 255) (hg : g ≤ 255) (hb : b ≤ 255) :
    -56 ≤ (ApplyGrayscale.luma r g b).e
      ∧ 1000 * (ApplyGrayscale.luma r g b).units
          ≤ 2 ^ 56 * (299 * r + 587 * g + 114 * b) + 2 ^ 30
      ∧ 2 ^ 56 * (299 * r + 587 * g + 114 * b)
          ≤ 1000 * (ApplyGrayscale.luma r g b).units + 2 ^ 30 := by
  unfold ApplyGrayscale.luma
  obtain ⟨e1, u1, l1⟩ := mul_nat_units ApplyGrayscale.c299 r (by decide)
  obtain ⟨e2, u2, l2⟩ := mul_nat_units ApplyGrayscale.c587 g (by decide)
  obtain ⟨e3, u3, l3⟩ := mul_nat_units ApplyGrayscale.c114 b (by decide)
  obtain ⟨e4, u4, l4⟩ := add_units _ _ e1 e2
  obtain ⟨e5, u5, l5⟩ := add_units _ _ e4 e3
  rw [c299_units] at u1 l1
  rw [c587_units] at u2 l2
  rw [c114_units] at u3 l3
  refine ⟨e5, ?_, ?_⟩
  · omega
  · omega


/-- The gray value of ApplyGrayscale: the truncated `double` luma is the exact quotient
`(299 r + 587 g + 114 b) / 1000`, or one less than it when the division is exact. -/
theorem luma_toInt (r g b : Nat) (hr : r ≤ 255) (hg : g ≤ 255) (hb : b ≤ 255) :
    ∃ l : Nat, Flt.toInt (ApplyGrayscale.luma r g b) = (l : Int) ∧ l ≤ 255
      ∧ (l = (299 * r + 587 * g + 114 * b) / 1000
        ∨ ((299 * r + 587 * g + 114 * b) % 1000 = 0
          ∧ l + 1 = (299 * r + 587 * g + 114 * b) / 1000)) := by
  obtain ⟨he, hu, hl⟩ := luma_units r g b hr hg hb
  refine ⟨(ApplyGrayscale.luma r g b).units / 2 ^ 56, toInt_units _ he, ?_, ?_⟩
  · omega
  · omega

theorem ApplyGrayscale_pixel_eq (p : Pixel) (hp : p.InRange) :
    ∃ l : Nat, ApplyGrayscale.pixel p = ⟨l, l, l⟩
      ∧ (l : Int) = Flt.toInt (ApplyGrayscale.luma p.r p.g p.b) ∧ l ≤ 255
      ∧ (l = (299 * p.r + 587 * p.g + 114 * p.b) / 1000
        ∨ ((299 * p.r + 587 * p.g + 114 * p.b) % 1000 = 0
          ∧ l + 1 = (299 * p.r + 587 * p.g + 114 * p.b) / 1000)) := by
  obtain ⟨hb, hg, hr⟩ := hp
  obtain ⟨l, h1, h2, h3⟩ := luma_toInt p.r p.g p.b (by omega) (by omega) (by omega)
  refine ⟨l, ?_, h1.symm, h2, h3⟩
  unfold ApplyGrayscale.pixel
  simp only [h1, toUInt8]
  have : ((l : Int) % 256).toNat = l := by omega
  rw [this]

theorem ApplyGrayscale_pixel_gray (p : Pixel) :
    ∃ c : Nat, c < 256 ∧ ApplyGrayscale.pixel p = ⟨c, c, c⟩ := by
  refine ⟨toUInt8 (Flt.toInt (ApplyGrayscale.luma p.r p.g p.b)), ?_, rfl⟩
  unfold toUInt8
  omega

theorem pixelAt_map (image : Image) (f : Pixel → Pixel) (y x : Nat) :
    pixelAt (image.map (fun row => row.map f)) y x = (pixelAt image y x).map f := by
  rw [pixelAt_eq, pixelAt_eq, List.getElem?_map]
  cases image[y]? with
  | none => rfl
  | some row => simp

theorem mem_of_pixelAt (image : Image) (y x : Nat) (p : Pixel)
    (h : pixelAt image y x = some p) : ∃ row ∈ image, p ∈ row := by
  rw [pixelAt_eq] at h
  cases hrow : image[y]? with
  | none => rw [hrow] at h; cases h
  | some row =>
    rw [hrow] at h
    exact ⟨row, List.getElem?_mem hrow, List.getElem?_mem h⟩

theorem pixelAt_ApplyGrayscale (image_ : Image) (y x : Nat) :
    pixelAt (ApplyGrayscale image_) y x = (pixelAt image_ y x).map ApplyGrayscale.pixel :=
  pixelAt_map image_ ApplyGrayscale.pixel y x

theorem ApplyGrayscale_lengths (image_ : Image) :
    (ApplyGrayscale image_).map List.length = image_.map List.length := by
  unfold ApplyGrayscale
  rw [List.map_map]
  apply List.map_congr_left
  intro row _
  simp

/-- C8 does not hold as stated: ApplyGrayscale maps the pixel (1, 1, 1) to (0, 0, 0), while
floor((299 * 1 + 587 * 1 + 114 * 1) / 1000) is 1: the three `double` constants add up to
less than 1, and the sum is truncated. -/
theorem ApplyGrayscale_not_exact :
    ApplyGrayscale [[⟨1, 1, 1⟩]] = [[⟨0, 0, 0⟩]]
      ∧ (299 * 1 + 587 * 1 + 114 * 1) / 1000 = 1 := by
  decide

/-- C8, amended. For every image (of 8-bit channels), ApplyGrayscale keeps the number of
rows and the length of every row and sets, at every pixel with original channels
(R, G, B), all three channels to the same value l: the `double` value of
0.299*R + 0.587*G + 0.114*B truncated toward zero. This value always lies in 0..255, so the
conversion to an 8-bit channel never wraps, and it is floor((299*R + 587*G + 114*B) / 1000),
except that it can be one less when 1000 divides 299*R + 587*G + 114*B. -/
theorem ApplyGrayscale_spec (image_ : Image) (hc : ChannelsInRange image_) :
    (ApplyGrayscale image_).map List.length = image_.map List.length
      ∧ ∀ y x p, pixelAt image_ y x = some p →
          ∃ l : Nat, pixelAt (ApplyGrayscale image_) y x = some ⟨l, l, l⟩
            ∧ (l : Int) = Flt.toInt (ApplyGrayscale.luma p.r p.g p.b) ∧ l ≤ 255
            ∧ (l = (299 * p.r + 587 * p.g + 114 * p.b) / 1000
              ∨ ((299 * p.r + 587 * p.g + 114 * p.b) % 1000 = 0
                ∧ l + 1 = (299 * p.r + 587 * p.g + 114 * p.b) / 1000)) := by
  refine ⟨ApplyGrayscale_lengths image_, ?_⟩
  intro y x p hp
  obtain ⟨row, hrow, hmem⟩ := mem_of_pixelAt image_ y x p hp
  obtain ⟨l, h1, h2⟩ := ApplyGrayscale_pixel_eq p (hc row hrow p hmem)
  refine ⟨l, ?_, h2⟩
  rw [pixelAt_ApplyGrayscale, hp, Option.map_some', h1]

/-- Witness of C8: the 3x2 test image; its pixel at row 1, column 2 is (17, 18, 27) and
becomes gray with value 20 = floor((299*27 + 587*18 + 114*17) / 1000). -/
theorem ApplyGrayscale_spec_witness :
    ∃ l : Nat, pixelAt (ApplyGrayscale (sampleImage 3 2)) 1 2 = some ⟨l, l, l⟩
      ∧ (l : Int) = Flt.toInt (ApplyGrayscale.luma 27 18 17) ∧ l ≤ 255
      ∧ (l = (299 * 27 + 587 * 18 + 114 * 17) / 1000
        ∨ ((299 * 27 + 587 * 18 + 114 * 17) % 1000 = 0
          ∧ l + 1 = (299 * 27 + 587 * 18 + 114 * 17) / 1000)) :=
  (ApplyGrayscale_spec (sampleImage 3 2) (by decide)).2 1 2 ⟨17, 18, 27⟩ (by decide)

/-- C9 does not hold as stated: on the one-pixel image (b, g, r) = (1, 1, 2), ApplyGrayscale gives
(1, 1, 1), and ApplyGrayscale applied twice gives (0, 0, 0): the gray pixel of value 1 is
not mapped to itself. -/
theorem ApplyGrayscale_not_idempotent :
    ApplyGrayscale [[⟨1, 1, 2⟩]] = [[⟨1, 1, 1⟩]]
      ∧ ApplyGrayscale (ApplyGrayscale [[⟨1, 1, 2⟩]]) = [[⟨0, 0, 0⟩]] := by
  decide

/-- C9, amended. Applying ApplyGrayscale twice gives an image of the same shape as applying
it once, in which every pixel is gray and each channel is the value after one application
or one less: a pixel whose three channels all equal v, for v in 0..255, is mapped to
(v, v, v) or, for v > 0, to (v - 1, v - 1, v - 1). -/
theorem ApplyGrayscale_twice (image_ : Image) :
    (ApplyGrayscale (ApplyGrayscale image_)).map List.length
        = (ApplyGrayscale image_).map List.length
      ∧ (∀ y x p, pixelAt (ApplyGrayscale image_) y x = some p →
          ∃ q, pixelAt (ApplyGrayscale (ApplyGrayscale image_)) y x = some q
            ∧ q.r = q.g ∧ q.g = q.b ∧ (q.r = p.r ∨ q.r + 1 = p.r))
      ∧ (∀ v, v < 256 →
          ApplyGrayscale.pixel ⟨v, v, v⟩ = ⟨v, v, v⟩
            ∨ (0 < v ∧ ApplyGrayscale.pixel ⟨v, v, v⟩ = ⟨v - 1, v - 1, v - 1⟩)) := by
  have hv : ∀ v, v < 256 →
      ApplyGrayscale.pixel ⟨v, v, v⟩ = ⟨v, v, v⟩
        ∨ (0 < v ∧ ApplyGrayscale.pixel ⟨v, v, v⟩ = ⟨v - 1, v - 1, v - 1⟩) := by
    intro v hv
    obtain ⟨l, h1, _, _, h4⟩ := ApplyGrayscale_pixel_eq ⟨v, v, v⟩ ⟨hv, hv, hv⟩
    simp only at h4
    rw [h1]
    rcases h4 with h4 | ⟨_, h4⟩
    · left
      have : l = v := by omega
      rw [this]
    · right
      have : l = v - 1 ∧ 0 < v := by omega
      rw [this.1]
      exact ⟨this.2, rfl⟩
  refine ⟨ApplyGrayscale_lengths _, ?_, hv⟩
  intro y x p hp
  have hp2 := hp
  rw [pixelAt_ApplyGrayscale] at hp2
  cases hp0 : pixelAt image_ y x with
  | none => rw [hp0] at hp2; cases hp2
  | some p0 =>
    rw [hp0, Option.map_some', Option.some.injEq] at hp2
    obtain ⟨c, hc, hpc⟩ := ApplyGrayscale_pixel_gray p0
    rw [hpc] at hp2
    subst hp2
    refine ⟨ApplyGrayscale.pixel ⟨c, c, c⟩, ?_, ?_⟩
    · rw [pixelAt_ApplyGrayscale, hp, Option.map_some']
    · rcases hv c hc with h | ⟨h0, h⟩
      · rw [h]; exact ⟨rfl, rfl, Or.inl rfl⟩
      · rw [h]; exact ⟨rfl, rfl, Or.inr (by simp only; omega)⟩

/-- Witness of C9: on the 4x2 black and white image, the gray pixel of value 255 at row 0,
column 1 keeps its value or loses one under a second application. -/
theorem ApplyGrayscale_twice_witness :
    (∃ q, pixelAt (ApplyGrayscale (ApplyGrayscale checkerboard)) 0 1 = some q
        ∧ q.r = q.g ∧ q.g = q.b ∧ (q.r = 255 ∨ q.r + 1 = 255))
      ∧ (ApplyGrayscale.pixel ⟨255, 255, 255⟩ = ⟨255, 255, 255⟩
        ∨ (0 < 255 ∧ ApplyGrayscale.pixel ⟨255, 255, 255⟩ = ⟨255 - 1, 255 - 1, 255 - 1⟩)) :=
  ⟨(ApplyGrayscale_twice checkerboard).2.1 0 1 ⟨255, 255, 255⟩ (by decide),
   (ApplyGrayscale_twice checkerboard).2.2 255 (by decide)⟩

/-! ## Examples: the filters on small images -/

/-- ApplyNegative inverts every channel of the 4x2 black and white image. -/
theorem ApplyNegative_checkerboard :
    ApplyNegative checkerboard
      = [[⟨255, 255, 255⟩, ⟨0, 0, 0⟩, ⟨255, 255, 255⟩, ⟨0, 0, 0⟩],
         [⟨0, 0, 0⟩, ⟨255, 255, 255⟩, ⟨0, 0, 0⟩, ⟨255, 255, 255⟩]] := by
  decide

/-- ApplyGrayscale leaves the 4x2 black and white image as it is: the luma of white is
255. -/
theorem ApplyGrayscale_checkerboard : ApplyGrayscale checkerboard = checkerboard := by
  decide

set_option maxRecDepth 100000 in
/-- ApplyCircularBlur with radius 1 on a 3x3 image, in `float` arithmetic: the centre becomes
the truncated mean of the five pixels of the disc (56.8, 43, 29.2), the border stays. -/
theorem ApplyCircularBlur_example :
    ApplyCircularBlur binary32 1
        [[⟨10, 20, 30⟩, ⟨40, 50, 60⟩, ⟨70, 80, 90⟩],
         [⟨5, 15, 25⟩, ⟨200, 100, 0⟩, ⟨35, 45, 55⟩],
         [⟨1, 2, 3⟩, ⟨4, 5, 6⟩, ⟨7, 8, 9⟩]]
      = Except.ok
        [[⟨10, 20, 30⟩, ⟨40, 50, 60⟩, ⟨70, 80, 90⟩],
         [⟨5, 15, 25⟩, ⟨56, 43, 29⟩, ⟨35, 45, 55⟩],
         [⟨1, 2, 3⟩, ⟨4, 5, 6⟩, ⟨7, 8, 9⟩]] := by
  decide

/-! ## Theorems: ReadImage on a truncated header (C14) -/

/-- The signature held by the BitmapHeader object after the read of line 25 on a stream
`file`: the bytes the stream has, then the indeterminate content of the object. -/
theorem signature_after_read (uninit file : List Nat) :
    ((BitmapHeader.ofBytes
          (istream_read sizeofBitmapHeader (uninit.take sizeofBitmapHeader) file).1).signature.1 = 66
      ∧ (BitmapHeader.ofBytes
          (istream_read sizeofBitmapHeader (uninit.take sizeofBitmapHeader) file).1).signature.2 = 77)
      ↔ (file ++ uninit.drop file.length).take 2 = [66, 77] := by
  unfold istream_read sizeofBitmapHeader BitmapHeader.ofBytes
  match file with
  | [] =>
    match uninit with
    | [] => simp
    | [u] => simp
    | u :: v :: rest => simp
  | [a] =>
    match uninit with
    | [] => simp
    | [u] => simp
    | u :: v :: rest => simp
  | a :: b :: rest => simp

/-- The signature check of line 28 is the only source of FormatError. -/
theorem decode_formatError_iff (bh : BitmapHeader) (dh : DibHeader) (file : List Nat) :
    ReadImage.decode bh dh file = Except.error FormatError
      ↔ ¬ (bh.signature.1 = 66 ∧ bh.signature.2 = 77) := by
  unfold ReadImage.decode
  constructor
  · intro h hs
    rw [if_neg (by rw [hs.1, hs.2]; decide)] at h
    split at h
    · exact absurd h (by decide)
    · split at h
      · cases h
      · cases h
  · intro h
    rw [if_pos (by
      by_cases h0 : bh.signature.1 = 66
      · right; intro h1; exact h ⟨h0, h1⟩
      · left; exact h0)]
    rfl

/-- C14, amended. For every byte stream shorter than the 54 bytes of the two headers (the
empty stream included), ReadImage fails with FormatError exactly when the first two bytes of
the BitmapHeader object filled at line 25 are not 'B' (66), 'M' (77): these are the first
bytes of the stream and, for those the stream lacks, the indeterminate content the object had
before the read. No read is checked, so a stream is never rejected for being truncated. -/
theorem ReadImage_short_stream (uninit file : List Nat) (hlen : file.length < 54) :
    ReadImage uninit file = Except.error FormatError
      ↔ (file ++ uninit.drop file.length).take 2 ≠ [66, 77] := by
  unfold ReadImage
  rw [decode_formatError_iff, signature_after_read]

/-- Witness of the amended C14: the 3-byte stream 'B', 'A', 0 is rejected with FormatError. -/
theorem ReadImage_short_stream_witness :
    ReadImage [0, 0] [66, 65, 0] = Except.error FormatError :=
  (ReadImage_short_stream [0, 0] [66, 65, 0] (by decide)).mpr (by decide)

/-- C14 does not hold as stated: the 34-byte stream that stops after the compression field of
the headers of a 1x1 bitmap with 24 bits per pixel is shorter than 54 bytes, and ReadImage
returns a 1x1 black image for it instead of failing with FormatError. The two reads of lines
25-26 and the pixel reads of line 44 are not checked: the fields the stream lacks keep their
indeterminate content (here all bytes 255) and are not looked at, and the pixel the stream
lacks keeps its initial value. -/
theorem ReadImage_truncated_header :
    ([66, 77] ++ List.replicate 12 0
        ++ [40, 0, 0, 0, 1, 0, 0, 0, 1, 0, 0, 0, 1, 0, 24, 0, 0, 0, 0, 0] : List Nat).length = 34
      ∧ ReadImage (List.replicate 54 255) ([66, 77] ++ List.replicate 12 0
        ++ [40, 0, 0, 0, 1, 0, 0, 0, 1, 0, 0, 0, 1, 0, 24, 0, 0, 0, 0, 0])
      = Except.ok [[⟨0, 0, 0⟩]] := by
  decide

/-! ## Theorems: the pixels ReadImage decodes (C15) -/

/-- The bytes of the pixels found at offsets 0, 3, 6, ... of a buffer are its first bytes. -/
theorem flatMap_toBytes_range (s : List Nat) (w : Nat) (hs : 3 * w ≤ s.length) :
    ((List.range w).map (fun x => Pixel.ofBytes (s.drop (3 * x)))).flatMap Pixel.toBytes
      = s.take (3 * w) := by
  induction w with
  | zero => simp
  | succ w ih =>
    rw [List.range_succ, List.map_append, List.flatMap_append, ih (by omega)]
    have h3 : 3 * (w + 1) = 3 * w + 1 + 1 + 1 := by ring
    rw [h3, List.take_succ, List.take_succ, List.take_succ]
    have e0 : s[3 * w]? = some (s.getD (3 * w) 0) := by
      rw [List.getD_eq_getElem?_getD, List.getElem?_eq_getElem (by omega)]; rfl
    have e1 : s[3 * w + 1]? = some (s.getD (3 * w + 1) 0) := by
      rw [List.getD_eq_getElem?_getD, List.getElem?_eq_getElem (by omega)]; rfl
    have e2 : s[3 * w + 1 + 1]? = some (s.getD (3 * w + 2) 0) := by
      rw [List.getD_eq_getElem?_getD, List.getElem?_eq_getElem (by omega)]; rfl
    rw [e0, e1, e2]
    simp [Pixel.toBytes, Pixel.ofBytes, List.getD_eq_getElem?_getD, List.getElem?_drop]

/-- One iteration of the row loop of ReadImage on any stream that holds the row: row `y` receives
the pixels found at offsets 0, 3, 6, ... and the stream advances over the row and its
padding, whatever the padding bytes are. -/
theorem readRow_stream (y w pad : Nat) (I : Image) (s : List Nat) (hy : y < I.length)
    (hlen : (I.getD y []).length = w) (hs : 3 * w ≤ s.length) :
    ReadImage.readRow w pad (I, s) y
      = (I.set y ((List.range w).map (fun x => Pixel.ofBytes (s.drop (3 * x)))),
          s.drop (w * 3 + pad)) := by
  unfold ReadImage.readRow
  have hsplit : s = ((List.range w).map (fun x => Pixel.ofBytes (s.drop (3 * x)))).flatMap
      Pixel.toBytes ++ s.drop (3 * w) := by
    rw [flatMap_toBytes_range s w hs, List.take_append_drop]
  have h := readRow_pixels y ((List.range w).map (fun x => Pixel.ofBytes (s.drop (3 * x)))) I
    (s.drop (3 * w)) hy (by rw [hlen]; simp)
  rw [← hsplit] at h
  simp only [List.length_map, List.length_range] at h
  rw [h]
  simp only [istream_ignore, List.drop_drop]
  rw [Nat.mul_comm 3 w]

/-- The row loop of ReadImage over rows `n - 1` down to 0. -/
theorem readRows_stream (w pad : Nat) :
    ∀ (n : Nat) (I : Image) (s : List Nat), n ≤ I.length →
      (∀ y, y < n → (I.getD y []).length = w) → n * (w * 3 + pad) ≤ s.length →
      ((List.range n).reverse.foldl (ReadImage.readRow w pad) (I, s)).1
        = (List.range n).map (fun y =>
            (List.range w).map (fun x =>
              Pixel.ofBytes (s.drop ((n - 1 - y) * (w * 3 + pad) + 3 * x))))
          ++ I.drop n := by
  intro n
  induction n with
  | zero => intro I s _ _ _; simp
  | succ n ih =>
    intro I s hI hrow hs
    have hmul : (n + 1) * (w * 3 + pad) = n * (w * 3 + pad) + (w * 3 + pad) := by ring
    rw [List.range_succ, List.reverse_append]
    simp only [List.reverse_cons, List.reverse_nil, List.nil_append, List.singleton_append,
      List.foldl_cons]
    rw [readRow_stream n w pad I s (by omega) (hrow n (by omega)) (by omega)]
    rw [ih _ _ (by rw [List.length_set]; omega)
      (fun y hy => by rw [getD_set_ne _ _ _ _ _ (by omega)]; exact hrow y (by omega))
      (by rw [List.length_drop]; omega)]
    rw [drop_set_self _ _ _ (by omega), List.map_append]
    simp only [List.map_cons, List.map_nil, List.append_assoc, List.singleton_append]
    congr 1
    · apply List.map_congr_left
      intro y hy
      rw [List.mem_range] at hy
      apply List.map_congr_left
      intro x _
      rw [List.drop_drop]
      congr 2
      have : n + 1 - 1 - y = (n - 1 - y) + 1 := by omega
      rw [this]
      ring
    · congr 1
      apply List.map_congr_left
      intro x _
      congr 2
      have : n + 1 - 1 - n = 0 := by omega
      rw [this]
      simp

theorem pixelAt_range_map (f : Nat → Nat → Pixel) (w h y x : Nat) (hy : y < h) (hx : x < w) :
    pixelAt ((List.range h).map (fun y => (List.range w).map (fun x => f y x))) y x
      = some (f y x) := by
  rw [pixelAt_eq]
  simp [hy, hx]

theorem IsRect.range_map (f : Nat → Nat → Pixel) (w h : Nat) :
    IsRect ((List.range h).map (fun y => (List.range w).map (fun x => f y x))) w h := by
  refine ⟨by simp, ?_⟩
  intro row hrow
  rw [List.mem_map] at hrow
  obtain ⟨y, _, rfl⟩ := hrow
  simp

/-- C15. For every byte stream that starts with 'B', 'M' and whose header holds 24 bits per
pixel, compression 0, a width w > 0 and a height h > 0, and that has at least
54 + h * stride bytes, where stride = (3 * w + 3) / 4 * 4 is 3w rounded up to a multiple of 4:
ReadImage returns an image of width w and height h whose pixel at column x of row y (row 0
is the top row) has blue, green, red equal to the bytes at offsets
54 + (h - 1 - y) * stride + 3 * x + 0, 1, 2. So the rows are stored bottom-up, the padding of
each row is skipped, and the pixel data is taken right after the 54 header bytes: no other
header field (data offset, header size, file size) is a hypothesis. -/
theorem ReadImage_pixels (uninit file : List Nat) (w h : Nat)
    (hsig : file.take 2 = [66, 77])
    (hbpp : (DibHeader.ofBytes (file.drop 14)).bits_per_pixel = 24)
    (hcomp : (DibHeader.ofBytes (file.drop 14)).compression_method = 0)
    (hw : (DibHeader.ofBytes (file.drop 14)).width = w)
    (hh : (DibHeader.ofBytes (file.drop 14)).height = h)
    (hwpos : 0 < w) (hhpos : 0 < h)
    (hlen : 54 + h * ((3 * w + 3) / 4 * 4) ≤ file.length) :
    ∃ image, ReadImage uninit file = Except.ok image
      ∧ IsRect image w h ∧ widthOf image = w ∧ heightOf image = h
      ∧ ∀ y x, y < h → x < w →
          pixelAt image y x
            = some { b := file.getD (54 + (h - 1 - y) * ((3 * w + 3) / 4 * 4) + 3 * x) 0
                     g := file.getD (54 + (h - 1 - y) * ((3 * w + 3) / 4 * 4) + 3 * x + 1) 0
                     r := file.getD (54 + (h - 1 - y) * ((3 * w + 3) / 4 * 4) + 3 * x + 2) 0 } := by
  have hstride : w * 3 + (4 - w * 3 % 4) % 4 = (3 * w + 3) / 4 * 4 := by omega
  have hs := (signature_of_take file (by omega)).mpr hsig
  have h1 : ¬ ((BitmapHeader.ofBytes file).signature.1 ≠ 66
      ∨ (BitmapHeader.ofBytes file).signature.2 ≠ 77) := by
    rintro (h | h)
    · exact h hs.1
    · exact h hs.2
  have h2 : ¬ ((DibHeader.ofBytes (file.drop 14)).bits_per_pixel ≠ Pixels
      ∨ (DibHeader.ofBytes (file.drop 14)).compression_method ≠ 0) := by
    rw [hbpp, hcomp]; decide
  have h3 : ¬ ((DibHeader.ofBytes (file.drop 14)).width < 0
      ∨ (DibHeader.ofBytes (file.drop 14)).height < 0) := by
    rw [hw, hh]; omega
  rw [ReadImage_of_length uninit file (by omega)]
  unfold ReadImage.decode
  rw [if_neg h1, if_neg h2, if_neg h3, hw, hh]
  simp only [Int.toNat_ofNat]
  rw [readRows_stream w _ h _ (file.drop 54) (by simp)
    (fun y hy => (IsRect.replicate w h ⟨0, 0, 0⟩).getD_length y hy)
    (by rw [hstride, List.length_drop]; omega)]
  have hd : (List.replicate h (List.replicate w (⟨0, 0, 0⟩ : Pixel))).drop h = [] :=
    List.drop_eq_nil_of_le (by simp)
  rw [hd, List.append_nil, hstride]
  refine ⟨_, rfl, IsRect.range_map _ w h, ?_, by simp [heightOf], ?_⟩
  · exact (IsRect.range_map _ w h).widthOf_eq hhpos
  · intro y x hy hx
    rw [pixelAt_range_map _ w h y x hy hx]
    simp [Pixel.ofBytes, List.getD_eq_getElem?_getD, List.getElem?_drop, Nat.add_assoc]

set_option maxRecDepth 100000 in
/-- Witness of C15: a 2x2 bitmap of stride 8 whose data offset and header size fields hold
other values than 54 and 40; the top-left pixel comes from offset 54 + 8, the bottom-right
pixel from offset 54 + 3. -/
theorem ReadImage_pixels_witness :
    ∃ image, ReadImage [] ([66, 77] ++ List.replicate 12 9
        ++ [7, 0, 0, 0, 2, 0, 0, 0, 2, 0, 0, 0, 1, 0, 24, 0, 0, 0, 0, 0] ++ List.replicate 20 0
        ++ [1, 2, 3, 4, 5, 6, 0, 0, 11, 12, 13, 14, 15, 16, 0, 0]) = Except.ok image
      ∧ IsRect image 2 2 ∧ widthOf image = 2 ∧ heightOf image = 2
      ∧ pixelAt image 0 0 = some ⟨11, 12, 13⟩ ∧ pixelAt image 1 1 = some ⟨4, 5, 6⟩ := by
  obtain ⟨image, h1, h2, h3, h4, h5⟩ := ReadImage_pixels [] ([66, 77] ++ List.replicate 12 9
        ++ [7, 0, 0, 0, 2, 0, 0, 0, 2, 0, 0, 0, 1, 0, 24, 0, 0, 0, 0, 0] ++ List.replicate 20 0
        ++ [1, 2, 3, 4, 5, 6, 0, 0, 11, 12, 13, 14, 15, 16, 0, 0]) 2 2
    (by decide) (by decide) (by decide) (by decide) (by decide) (by decide) (by decide)
    (by decide)
  exact ⟨image, h1, h2, h3, h4, h5 0 0 (by decide) (by decide), h5 1 1 (by decide) (by decide)⟩

/-! ## Theorems: loops that store pixels -/

theorem pixelAt_setPixel_self (image : Image) (W H y x : Nat) (p : Pixel)
    (hr : IsRect image W H) (hy : y < H) (hx : x < W) :
    pixelAt (setPixel image y x p) y x = some p := by
  unfold pixelAt setPixel
  have hlen : y < image.length := by rw [hr.1]; exact hy
  rw [getD_set_self _ _ _ _ hlen]
  have hw : (image.getD y []).length = W := hr.getD_length y hy
  rw [List.getElem?_set_self (by omega)]

theorem pixelAt_lt_of_isRect (image : Image) (W H y x : Nat) (hr : IsRect image W H)
    (hy : y < H) (hx : x < W) : ∃ p, pixelAt image y x = some p := by
  unfold pixelAt
  have hw : (image.getD y []).length = W := hr.getD_length y hy
  exact ⟨(image.getD y [])[x], List.getElem?_eq_getElem (by omega)⟩

theorem getPixel_of_pixelAt (image : Image) (y x : Nat) (p : Pixel)
    (h : pixelAt image y x = some p) : getPixel image y x = p := by
  unfold pixelAt at h
  unfold getPixel
  rw [List.getD_eq_getElem?_getD, h]
  rfl

theorem getPixel_eq_of_pixelAt_eq (A B : Image) (y x : Nat)
    (h : pixelAt A y x = pixelAt B y x) : getPixel A y x = getPixel B y x := by
  unfold pixelAt at h
  unfold getPixel
  rw [List.getD_eq_getElem?_getD, List.getD_eq_getElem?_getD (List.getD B y []), h]

/-- Two images of the same dimensions with the same pixels are equal. -/
theorem image_ext (A B : Image) (W H : Nat) (hA : IsRect A W H) (hB : IsRect B W H)
    (h : ∀ y x, y < H → x < W → pixelAt A y x = pixelAt B y x) : A = B := by
  apply List.ext_getElem
  · rw [hA.1, hB.1]
  · intro y h1 h2
    have hy : y < H := by rw [← hA.1]; exact h1
    have eA : A.getD y [] = A[y] := List.getD_eq_getElem _ _ h1
    have eB : B.getD y [] = B[y] := List.getD_eq_getElem _ _ h2
    have lA : A[y].length = W := hA.2 _ (List.getElem_mem _)
    have lB : B[y].length = W := hB.2 _ (List.getElem_mem _)
    apply List.ext_getElem
    · rw [lA, lB]
    · intro x h3 h4
      have hx : x < W := by rw [← lA]; exact h3
      have := h y x hy hx
      unfold pixelAt at this
      rw [eA, eB, List.getElem?_eq_getElem h3, List.getElem?_eq_getElem h4] at this
      exact Option.some.inj this

theorem mem_list_product {α β : Type} (l1 : List α) (l2 : List β) (a : α) (b : β) :
    (a, b) ∈ List.product l1 l2 ↔ a ∈ l1 ∧ b ∈ l2 := List.mem_product

/-- A loop nest is a loop over the pairs of indices. -/
theorem foldl_product {α β γ : Type} (g : γ → α → β → γ) (l1 : List α) (l2 : List β) :
    ∀ r0 : γ, l1.foldl (fun r a => l2.foldl (fun r b => g r a b) r) r0
      = (List.product l1 l2).foldl (fun r p => g r p.1 p.2) r0 := by
  induction l1 with
  | nil => intro r0; rfl
  | cons a l1 ih =>
    intro r0
    rw [List.foldl_cons, ih]
    show _ = List.foldl _ r0 ((a :: l1).flatMap fun a => l2.map (Prod.mk a))
    rw [List.flatMap_cons, List.foldl_append, List.foldl_map]
    rfl

/-- A loop whose steps write disjoint sets of pixels: when each step `a`, run on an image
that still has the initial pixels on its own set `D a`, stores `f a` there and changes
nothing else, the loop stores `f a` on every `D a` and changes nothing else. -/
theorem foldl_footprint {α : Type} (step : Image → α → Image) (D : α → Nat → Nat → Prop)
    (f : α → Nat → Nat → Pixel) (Inv : Image → Prop) (L : List α) :
    ∀ R0 : Image, Inv R0 →
      L.Pairwise (fun a b => ∀ y x, D a y x → ¬ D b y x) →
      (∀ a ∈ L, ∀ R : Image, Inv R → (∀ y x, D a y x → pixelAt R y x = pixelAt R0 y x) →
        Inv (step R a) ∧ (∀ y x, D a y x → pixelAt (step R a) y x = some (f a y x))
          ∧ (∀ y x, ¬ D a y x → pixelAt (step R a) y x = pixelAt R y x)) →
      Inv (L.foldl step R0)
        ∧ (∀ a ∈ L, ∀ y x, D a y x → pixelAt (L.foldl step R0) y x = some (f a y x))
        ∧ (∀ y x, (∀ a ∈ L, ¬ D a y x) → pixelAt (L.foldl step R0) y x = pixelAt R0 y x) := by
  induction L with
  | nil =>
    intro R0 h0 _ _
    exact ⟨h0, fun a ha => absurd ha (List.not_mem_nil _), fun _ _ _ => rfl⟩
  | cons a L ih =>
    intro R0 h0 hpw hstep
    rw [List.pairwise_cons] at hpw
    obtain ⟨hs1, hs2, hs3⟩ := hstep a (List.mem_cons_self _ _) R0 h0 (fun _ _ _ => rfl)
    have hrec := ih (step R0 a) hs1 hpw.2 (fun b hb R hR hagree =>
      hstep b (List.mem_cons_of_mem _ hb) R hR (fun y x hD => by
        rw [hagree y x hD]
        exact hs3 y x (fun hDa => hpw.1 b hb y x hDa hD)))
    rw [List.foldl_cons]
    refine ⟨hrec.1, ?_, ?_⟩
    · intro b hb y x hD
      rcases List.mem_cons.mp hb with rfl | hb2
      · rw [hrec.2.2 y x (fun c hc hDc => hpw.1 c hc y x hD hDc)]
        exact hs2 y x hD
      · exact hrec.2.1 b hb2 y x hD
    · intro y x hnone
      rw [hrec.2.2 y x (fun c hc => hnone c (List.mem_cons_of_mem _ hc))]
      exact hs3 y x (hnone a (List.mem_cons_self _ _))

/-- A loop nest that stores into each pixel `(y, x)` of a rectangular image a value that
depends on the position only, when computed from an image that still has the initial pixel
there: the result is the image of these values. -/
theorem foldl_setPixel_all (F : Image → Nat → Nat → Pixel) (f : Nat → Nat → Pixel)
    (R0 : Image) (W H : Nat) (hr : IsRect R0 W H)
    (hF : ∀ R : Image, ∀ y x, y < H → x < W → pixelAt R y x = pixelAt R0 y x →
      F R y x = f y x) :
    (List.product (List.range H) (List.range W)).foldl
        (fun r p => setPixel r p.1 p.2 (F r p.1 p.2)) R0
      = (List.range H).map (fun y => (List.range W).map (fun x => f y x)) := by
  have hnd : (List.product (List.range H) (List.range W)).Nodup :=
    List.Nodup.product (List.nodup_range H) (List.nodup_range W)
  have key := foldl_footprint (fun r (p : Nat × Nat) => setPixel r p.1 p.2 (F r p.1 p.2))
    (fun p y x => y = p.1 ∧ x = p.2) (fun p _ _ => f p.1 p.2) (fun R => IsRect R W H)
    (List.product (List.range H) (List.range W)) R0 hr
    (hnd.imp (fun {a b} hab y x h1 h2 => hab (Prod.ext (h1.1.symm.trans h2.1)
      (h1.2.symm.trans h2.2))))
    (fun p hp R hR hagree => by
      obtain ⟨p1, p2⟩ := p
      rw [mem_list_product, List.mem_range, List.mem_range] at hp
      refine ⟨setPixel_isRect _ _ _ _ _ _ hR, ?_, ?_⟩
      · rintro y x ⟨rfl, rfl⟩
        rw [pixelAt_setPixel_self _ W H _ _ _ hR hp.1 hp.2,
          hF R _ _ hp.1 hp.2 (hagree _ _ ⟨rfl, rfl⟩)]
      · intro y x hne
        exact pixelAt_setPixel_ne _ _ _ _ _ _ (fun h => hne ⟨h.1.symm, h.2.symm⟩))
  apply image_ext _ _ W H key.1 (IsRect.range_map _ W H)
  intro y x hy hx
  rw [pixelAt_range_map _ W H y x hy hx]
  exact key.2.1 (y, x) (by rw [mem_list_product, List.mem_range, List.mem_range]; exact ⟨hy, hx⟩)
    y x ⟨rfl, rfl⟩

/-! ## Theorems: ApplyMatrix and ApplySharpening (C16) -/

/-- ApplyMatrix on a rectangular image: the image of the pixels computed from the input. -/
theorem ApplyMatrix_eq (kernel : List (List Int)) (image_ : Image) (W H : Nat)
    (hr : IsRect image_ W H) (hH : 0 < H) :
    ApplyMatrix kernel image_
      = (List.range H).map (fun (y : Nat) => (List.range W).map (fun (x : Nat) =>
          ApplyMatrix.pixel kernel image_ y x)) := by
  unfold ApplyMatrix
  have hW : (image_.getD 0 []).length = W := hr.getD_length 0 hH
  simp only [hW, hr.1]
  rw [foldl_product (fun r y x => setPixel r y x (ApplyMatrix.pixel kernel image_ y x))]
  exact foldl_setPixel_all (fun _ y x => ApplyMatrix.pixel kernel image_ y x) _ image_ W H hr
    (fun _ _ _ _ _ _ => rfl)

/-- The adjusted coordinate is inside the image. -/
theorem clampIndex_valid (index size : Int) (h : 0 < size) :
    0 ≤ ApplyMatrix.clampIndex index size ∧ ApplyMatrix.clampIndex index size < size := by
  unfold ApplyMatrix.clampIndex
  split
  · omega
  · split <;> omega

theorem clampIndex_pred (x W : Nat) (hx : x < W) :
    (ApplyMatrix.clampIndex ((x : Int) - 1 + 0) W).toNat = x - 1 := by
  unfold ApplyMatrix.clampIndex
  split
  · omega
  · split <;> omega

theorem clampIndex_self (x W : Nat) (hx : x < W) :
    (ApplyMatrix.clampIndex ((x : Int) - 1 + 1) W).toNat = x := by
  unfold ApplyMatrix.clampIndex
  split
  · omega
  · split <;> omega

theorem clampIndex_succ (x W : Nat) (hx : x < W) :
    (ApplyMatrix.clampIndex ((x : Int) - 1 + 2) W).toNat = min (x + 1) (W - 1) := by
  unfold ApplyMatrix.clampIndex
  split
  · omega
  · split <;> omega

/-- The accumulator of ApplyMatrix for a 3x3 kernel that is zero in its corners. -/
theorem ApplyMatrix_sum_cross (a b c d e : Int) (image_ : Image) (W H : Nat)
    (hr : IsRect image_ W H) (channel : Pixel → Nat) (y x : Nat) (hy : y < H) (hx : x < W) :
    ApplyMatrix.sum [[0, a, 0], [b, c, d], [0, e, 0]] image_ channel y x
      = (channel (getPixel image_ (y - 1) x) : Int) * a
        + (channel (getPixel image_ y (x - 1)) : Int) * b
        + (channel (getPixel image_ y x) : Int) * c
        + (channel (getPixel image_ y (min (x + 1) (W - 1))) : Int) * d
        + (channel (getPixel image_ (min (y + 1) (H - 1)) x) : Int) * e := by
  have hW : (image_.getD 0 []).length = W := hr.getD_length 0 (by omega)
  have h3 : intRange 0 3 = [0, 1, 2] := by decide
  have h1 : (3 : Int) / 2 = 1 := by decide
  unfold ApplyMatrix.sum
  simp only [List.length_cons, List.length_nil, hW, hr.1]
  norm_num only [h3, h1, List.foldl_cons, List.foldl_nil]
  rw [clampIndex_pred x W hx, clampIndex_self x W hx, clampIndex_succ x W hx,
    clampIndex_pred y H hy, clampIndex_self y H hy, clampIndex_succ y H hy]
  have t0 : Int.toNat 0 = 0 := rfl
  have t1 : Int.toNat 1 = 1 := rfl
  have t2 : Int.toNat 2 = 2 := rfl
  simp only [t0, t1, t2, List.getD_cons_zero, List.getD_cons_succ]
  ring

theorem toUInt8_clamp (s : Int) :
    (toUInt8 (min MaxColorValue (max 0 s)) : Int) = max 0 (min 255 s) := by
  unfold toUInt8 MaxColorValue
  omega

/-- C16. For every rectangular image of width W > 0 and height H > 0, ApplySharpening keeps
the dimensions and sets each channel c of the pixel at column x of row y to
5 c(x, y) - c(x - 1, y) - c(x + 1, y) - c(x, y - 1) - c(x, y + 1) limited to 0 .. 255, where
c is the same channel in the image before the filter and a neighbour coordinate outside the
image is replaced by the nearest one inside: the left and upper neighbours are at `x - 1` and
`y - 1` on the naturals, which is 0 at the edge, the right and lower ones at
`min (x + 1) (W - 1)` and `min (y + 1) (H - 1)`. The coordinate adjustment of ApplyMatrix
yields an index inside the image for every coordinate. -/
theorem ApplySharpening_spec (image_ : Image) (W H : Nat) (hr : IsRect image_ W H)
    (hW : 0 < W) (hH : 0 < H) :
    IsRect (ApplySharpening image_) W H
      ∧ widthOf (ApplySharpening image_) = W ∧ heightOf (ApplySharpening image_) = H
      ∧ (∀ y x, y < H → x < W → ∃ p, pixelAt (ApplySharpening image_) y x = some p
          ∧ ∀ channel : Pixel → Nat,
              channel = Pixel.r ∨ channel = Pixel.g ∨ channel = Pixel.b →
              (channel p : Int)
                = max 0 (min 255
                    (5 * (channel (getPixel image_ y x) : Int)
                      - channel (getPixel image_ y (x - 1))
                      - channel (getPixel image_ y (min (x + 1) (W - 1)))
                      - channel (getPixel image_ (y - 1) x)
                      - channel (getPixel image_ (min (y + 1) (H - 1)) x))))
      ∧ (∀ index : Int, 0 ≤ ApplyMatrix.clampIndex index W ∧ ApplyMatrix.clampIndex index W < W
          ∧ 0 ≤ ApplyMatrix.clampIndex index H ∧ ApplyMatrix.clampIndex index H < H) := by
  have heq := ApplyMatrix_eq [[0, -1, 0], [-1, 5, -1], [0, -1, 0]] image_ W H hr hH
  unfold ApplySharpening
  rw [heq]
  refine ⟨IsRect.range_map _ W H, (IsRect.range_map _ W H).widthOf_eq hH, by simp [heightOf],
    ?_, ?_⟩
  · intro y x hy hx
    refine ⟨_, pixelAt_range_map _ W H y x hy hx, ?_⟩
    intro channel hc
    have hs := fun ch => ApplyMatrix_sum_cross (-1) (-1) 5 (-1) (-1) image_ W H hr ch y x hy hx
    rcases hc with rfl | rfl | rfl
    · show (toUInt8 _ : Int) = _
      rw [toUInt8_clamp, hs]
      congr 2
      ring
    · show (toUInt8 _ : Int) = _
      rw [toUInt8_clamp, hs]
      congr 2
      ring
    · show (toUInt8 _ : Int) = _
      rw [toUInt8_clamp, hs]
      congr 2
      ring
  · intro index
    have h1 := clampIndex_valid index W (by omega)
    have h2 := clampIndex_valid index H (by omega)
    exact ⟨h1.1, h1.2, h2.1, h2.2⟩

/-- Witness of C16: the centre pixel of the 3x3 test image. -/
theorem ApplySharpening_spec_witness :
    IsRect (ApplySharpening (sampleImage 3 3)) 3 3
      ∧ pixelAt (ApplySharpening (sampleImage 3 3)) 1 1 = some ⟨10, 17, 14⟩ := by
  obtain ⟨h1, _, _, h4, _⟩ := ApplySharpening_spec (sampleImage 3 3) 3 3 (by decide)
    (by decide) (by decide)
  refine ⟨h1, ?_⟩
  obtain ⟨p, hp, hc⟩ := h4 1 1 (by decide) (by decide)
  rw [hp]
  have hr := hc Pixel.r (Or.inl rfl)
  have hg := hc Pixel.g (Or.inr (Or.inl rfl))
  have hb := hc Pixel.b (Or.inr (Or.inr rfl))
  obtain ⟨b, g, r⟩ := p
  have e11 : getPixel (sampleImage 3 3) 1 1 = ⟨10, 17, 14⟩ := by decide
  have e10 : getPixel (sampleImage 3 3) 1 (1 - 1) = ⟨3, 16, 1⟩ := by decide
  have e12 : getPixel (sampleImage 3 3) 1 (min (1 + 1) (3 - 1)) = ⟨17, 18, 27⟩ := by decide
  have e01 : getPixel (sampleImage 3 3) (1 - 1) 1 = ⟨7, 6, 1⟩ := by decide
  have e21 : getPixel (sampleImage 3 3) (min (1 + 1) (3 - 1)) 1 = ⟨13, 28, 27⟩ := by decide
  rw [e11, e10, e12, e01, e21] at hr hg hb
  simp only [Pixel.mk.injEq, Option.some.injEq]
  simp only [Nat.cast_ofNat] at hr hg hb
  omega

/-! ## Theorems: ApplyEdgeDetection (C17) -/

theorem IsRect.map (f : Pixel → Pixel) (image : Image) (W H : Nat) (hr : IsRect image W H) :
    IsRect (image.map (fun row => row.map f)) W H := by
  refine ⟨by rw [List.length_map]; exact hr.1, ?_⟩
  intro row hrow
  rw [List.mem_map] at hrow
  obtain ⟨r, hr1, rfl⟩ := hrow
  rw [List.length_map]
  exact hr.2 r hr1

theorem IsRect.ApplyMatrix (kernel : List (List Int)) (image_ : Image) (W H : Nat)
    (hr : IsRect image_ W H) (hH : 0 < H) : IsRect (ApplyMatrix kernel image_) W H := by
  rw [ApplyMatrix_eq kernel image_ W H hr hH]
  exact IsRect.range_map _ W H

/-- The loops of lines 144-156 replace every pixel by its binarisation. -/
theorem ApplyEdgeDetection_eq (threshold : Double) (image_ : Image) (W H : Nat)
    (hr : IsRect image_ W H) (hH : 0 < H) :
    ApplyEdgeDetection threshold image_
      = (List.range H).map (fun y => (List.range W).map (fun x =>
          ApplyEdgeDetection.pixel threshold
            (getPixel (ApplyMatrix [[0, -1, 0], [-1, 4, -1], [0, -1, 0]] (ApplyGrayscale image_))
              y x))) := by
  have hE : IsRect (ApplyMatrix [[0, -1, 0], [-1, 4, -1], [0, -1, 0]] (ApplyGrayscale image_))
      W H := IsRect.ApplyMatrix _ _ W H (IsRect.map _ image_ W H hr) hH
  unfold ApplyEdgeDetection
  simp only [hE.1, hE.getD_length 0 hH]
  rw [foldl_product (fun r y x => setPixel r y x (ApplyEdgeDetection.pixel threshold
    (getPixel r y x)))]
  exact foldl_setPixel_all (fun r y x => ApplyEdgeDetection.pixel threshold (getPixel r y x)) _
    _ W H hE (fun R y x _ _ h => by
      show ApplyEdgeDetection.pixel threshold _ = ApplyEdgeDetection.pixel threshold _
      rw [getPixel_eq_of_pixelAt_eq _ _ y x h])

/-- C17. For every `double` threshold (finite of either sign, infinite or NaN) and every
rectangular image of width W > 0 and height H > 0, ApplyEdgeDetection returns an image of the
same dimensions in which every pixel is black (0,0,0) or white (255,255,255). With E the image
that ApplyMatrix with the kernel [[0,-1,0],[-1,4,-1],[0,-1,0]] computes from the ApplyGrayscale
of the input, whose red channel at (x, y) is
4 g(x, y) - g(x - 1, y) - g(x + 1, y) - g(x, y - 1) - g(x, y + 1) limited to 0 .. 255 for the
gray values g, a neighbour coordinate outside the image being replaced by the nearest one
inside: the pixel at (x, y) is black exactly when E(x, y).r / 255 < threshold, where the
quotient and the comparison are those of `double` as at line 146, and white otherwise. -/
theorem ApplyEdgeDetection_spec (threshold : Double) (image_ : Image) (W H : Nat)
    (hr : IsRect image_ W H) (hW : 0 < W) (hH : 0 < H) :
    IsRect (ApplyEdgeDetection threshold image_) W H
      ∧ widthOf (ApplyEdgeDetection threshold image_) = W
      ∧ heightOf (ApplyEdgeDetection threshold image_) = H
      ∧ ∀ y x, y < H → x < W →
          ∃ e, pixelAt (ApplyMatrix [[0, -1, 0], [-1, 4, -1], [0, -1, 0]]
                (ApplyGrayscale image_)) y x = some e
            ∧ (e.r : Int) = max 0 (min 255
                (4 * ((getPixel (ApplyGrayscale image_) y x).r : Int)
                  - (getPixel (ApplyGrayscale image_) y (x - 1)).r
                  - (getPixel (ApplyGrayscale image_) y (min (x + 1) (W - 1))).r
                  - (getPixel (ApplyGrayscale image_) (y - 1) x).r
                  - (getPixel (ApplyGrayscale image_) (min (y + 1) (H - 1)) x).r))
            ∧ (pixelAt (ApplyEdgeDetection threshold image_) y x = some ⟨0, 0, 0⟩
                ∨ pixelAt (ApplyEdgeDetection threshold image_) y x = some ⟨255, 255, 255⟩)
            ∧ (pixelAt (ApplyEdgeDetection threshold image_) y x = some ⟨0, 0, 0⟩
                ↔ Flt.ltDouble (Flt.div 53 ⟨e.r, 0⟩ ⟨255, 0⟩) threshold = true) := by
  have hG : IsRect (ApplyGrayscale image_) W H := IsRect.map _ image_ W H hr
  have hE : IsRect (ApplyMatrix [[0, -1, 0], [-1, 4, -1], [0, -1, 0]] (ApplyGrayscale image_))
      W H := IsRect.ApplyMatrix _ _ W H hG hH
  rw [ApplyEdgeDetection_eq threshold image_ W H hr hH]
  refine ⟨IsRect.range_map _ W H, (IsRect.range_map _ W H).widthOf_eq hH, by simp [heightOf],
    ?_⟩
  intro y x hy hx
  obtain ⟨e, he⟩ := pixelAt_lt_of_isRect _ W H y x hE hy hx
  refine ⟨e, he, ?_, ?_⟩
  · have he2 := he
    rw [ApplyMatrix_eq _ _ W H hG hH, pixelAt_range_map _ W H y x hy hx] at he2
    have he3 := Option.some.inj he2
    rw [← he3]
    show (toUInt8 _ : Int) = _
    rw [toUInt8_clamp, ApplyMatrix_sum_cross (-1) (-1) 4 (-1) (-1) _ W H hG Pixel.r y x hy hx]
    congr 2
    ring
  · rw [pixelAt_range_map _ W H y x hy hx, getPixel_of_pixelAt _ y x e he]
    unfold ApplyEdgeDetection.pixel
    have h255 : MaxColorValue.toNat = 255 := rfl
    have h255b : toUInt8 MaxColorValue = 255 := rfl
    rw [h255, h255b]
    by_cases hlt : Flt.ltDouble (Flt.div 53 ⟨e.r, 0⟩ ⟨255, 0⟩) threshold = true
    · rw [if_pos hlt]
      exact ⟨Or.inl rfl, fun _ => hlt, fun _ => rfl⟩
    · rw [if_neg hlt]
      refine ⟨Or.inr rfl, fun h => ?_, fun h => absurd h hlt⟩
      exact absurd h (by decide)

/-- Witness of C17: on the 4x2 checkerboard with threshold 0.125 the filter keeps the
dimensions and the pixel at column 1 of row 0 is black or white. -/
theorem ApplyEdgeDetection_spec_witness :
    IsRect (ApplyEdgeDetection (Double.finite false ⟨1, -3⟩) checkerboard) 4 2
      ∧ (pixelAt (ApplyEdgeDetection (Double.finite false ⟨1, -3⟩) checkerboard) 0 1
            = some ⟨0, 0, 0⟩
          ∨ pixelAt (ApplyEdgeDetection (Double.finite false ⟨1, -3⟩) checkerboard) 0 1
            = some ⟨255, 255, 255⟩) := by
  obtain ⟨h1, _, _, h4⟩ := ApplyEdgeDetection_spec (Double.finite false ⟨1, -3⟩) checkerboard
    4 2 (by decide) (by decide) (by decide)
  obtain ⟨e, _, _, h5, _⟩ := h4 0 1 (by decide) (by decide)
  exact ⟨h1, h5⟩

/-! ## Theorems: the cells of ApplyImageSplit -/

theorem intRange_zero (n : Nat) :
    intRange 0 (n : Int) = (List.range n).map (fun (i : Nat) => (i : Int)) := by
  unfold intRange
  simp

theorem intRange_nodup (lo hi : Int) : (intRange lo hi).Nodup := by
  unfold intRange
  apply List.Nodup.map _ (List.nodup_range _)
  intro a b h
  simp only at h
  omega

theorem div_eq_iff_cell (b y i : Nat) (hb : 0 < b) : y / b = i ↔ i * b ≤ y ∧ y < i * b + b := by
  constructor
  · rintro rfl
    constructor
    · exact Nat.div_mul_le_self y b
    · have := Nat.lt_div_mul_add hb (a := y)
      exact this
  · rintro ⟨h1, h2⟩
    apply Nat.le_antisymm
    · have : y / b < i + 1 := by
        rw [Nat.div_lt_iff_lt_mul hb]
        calc y < i * b + b := h2
          _ = (i + 1) * b := by ring
      omega
    · rw [Nat.le_div_iff_mul_le hb]
      exact h1

/-- A guarded accumulation is the sum over the elements that pass the guard. -/
theorem foldl_guard_eq_sum {α : Type} (l : List α) (c : α → Prop) [DecidablePred c]
    (v : α → Int) :
    ∀ s : Int, l.foldl (fun s a => if c a then s + v a else s) s
      = s + ((l.filter c).map v).sum := by
  induction l with
  | nil => intro s; simp
  | cons a l ih =>
    intro s
    rw [List.foldl_cons, ih]
    by_cases h : c a
    · simp [h, List.filter_cons]
      ring
    · simp [h, List.filter_cons]

/-- The positions of one side of cell `i` that lie below the bound `H`, as a sum. -/
theorem sum_intRange_guard (i b H : Nat) (hb : 0 < b) (F : Int → Int) :
    (((intRange ((i : Int) * b) ((i : Int) * b + b)).filter (fun z => z < (H : Int))).map F).sum
      = ∑ n ∈ (Finset.range H).filter (fun n => n / b = i), F n := by
  have hnd : ((intRange ((i : Int) * b) ((i : Int) * b + b)).filter
      (fun z => z < (H : Int))).Nodup := (intRange_nodup _ _).filter _
  rw [← List.sum_toFinset F hnd]
  have hset : ((intRange ((i : Int) * b) ((i : Int) * b + b)).filter
      (fun z => z < (H : Int))).toFinset
      = ((Finset.range H).filter (fun n => n / b = i)).image (fun (n : Nat) => (n : Int)) := by
    ext z
    simp only [List.mem_toFinset, List.mem_filter, mem_intRange, decide_eq_true_eq,
      Finset.mem_image, Finset.mem_filter, Finset.mem_range]
    constructor
    · rintro ⟨⟨h1, h2⟩, h3⟩
      have hz : 0 ≤ z := le_trans (by positivity) h1
      refine ⟨z.toNat, ⟨by omega, ?_⟩, by omega⟩
      rw [div_eq_iff_cell b _ i hb]
      constructor
      · have : ((i * b : Nat) : Int) ≤ z := by push_cast; exact h1
        omega
      · have : z < ((i * b + b : Nat) : Int) := by push_cast; exact h2
        omega
    · rintro ⟨n, ⟨h1, h2⟩, rfl⟩
      rw [div_eq_iff_cell b _ i hb] at h2
      refine ⟨⟨?_, ?_⟩, by omega⟩
      · have : ((i * b : Nat) : Int) ≤ n := by omega
        push_cast at this
        exact this
      · have : (n : Int) < ((i * b + b : Nat) : Int) := by omega
        push_cast at this
        exact this
  rw [hset, Finset.sum_image (fun x _ y _ h => by omega)]

/-- The accumulators of ApplyImageSplit for the cell of row `i` and column `j`: the sum over
the positions of the original image whose row index has quotient `i` by the block size and
whose column index has quotient `j`. -/
theorem ApplyImageSplit_sum_eq (R : Image) (W H b i j : Nat) (hb : 0 < b)
    (value : Pixel → Int) :
    ApplyImageSplit.sum R W H ((j : Int) * b) ((i : Int) * b) ((j : Int) * b + b)
        ((i : Int) * b + b) value
      = ∑ y ∈ (Finset.range H).filter (fun y => y / b = i),
          ∑ x ∈ (Finset.range W).filter (fun x => x / b = j), value (getPixel R y x) := by
  unfold ApplyImageSplit.sum
  have inner : ∀ (y : Int) (s : Int),
      (intRange ((j : Int) * b) ((j : Int) * b + b)).foldl (fun (sum : Int) (x : Int) =>
        if y < (H : Int) ∧ x < (W : Int) then sum + value (getPixel R y.toNat x.toNat)
        else sum) s
      = if y < (H : Int) then
          s + ∑ x ∈ (Finset.range W).filter (fun x => x / b = j), value (getPixel R y.toNat x)
        else s := by
    intro y s
    by_cases hy : y < (H : Int)
    · simp only [hy, true_and, if_true]
      rw [foldl_guard_eq_sum _ (fun x => x < (W : Int))
        (fun x => value (getPixel R y.toNat x.toNat)) s,
        sum_intRange_guard j b W hb (fun x => value (getPixel R y.toNat x.toNat))]
      simp
    · simp only [hy, false_and, if_false]
      exact foldl_id _ _
  simp only [inner]
  rw [foldl_guard_eq_sum _ (fun y => y < (H : Int))
    (fun y => ∑ x ∈ (Finset.range W).filter (fun x => x / b = j),
      value (getPixel R y.toNat x)) 0,
    sum_intRange_guard i b H hb (fun y => ∑ x ∈ (Finset.range W).filter (fun x => x / b = j),
      value (getPixel R y.toNat x))]
  simp

/-- The number of positions `num_pixels` counts for the cell of row `i` and column `j`. -/
theorem ApplyImageSplit_num_pixels (R : Image) (W H b i j : Nat) (hb : 0 < b) :
    ApplyImageSplit.sum R W H ((j : Int) * b) ((i : Int) * b) ((j : Int) * b + b)
        ((i : Int) * b + b) (fun _ => 1)
      = ((((Finset.range H).filter (fun y => y / b = i)).card
          * ((Finset.range W).filter (fun x => x / b = j)).card : Nat) : Int) := by
  rw [ApplyImageSplit_sum_eq R W H b i j hb]
  simp

theorem card_cell_pos (H b i : Nat) (hb : 0 < b) (hi : i * b < H) :
    0 < ((Finset.range H).filter (fun y => y / b = i)).card := by
  apply Finset.card_pos.mpr
  refine ⟨i * b, ?_⟩
  simp only [Finset.mem_filter, Finset.mem_range]
  exact ⟨hi, Nat.mul_div_cancel i hb⟩

theorem cell_bounds_int (b y i : Nat) (hb : 0 < b) :
    y / b = i ↔ (i : Int) * b ≤ y ∧ (y : Int) < (i : Int) * b + b := by
  rw [div_eq_iff_cell b y i hb]
  constructor
  · rintro ⟨h1, h2⟩
    have e1 : ((i * b : Nat) : Int) ≤ y := by omega
    have e2 : (y : Int) < ((i * b + b : Nat) : Int) := by omega
    push_cast at e1 e2
    exact ⟨e1, e2⟩
  · rintro ⟨h1, h2⟩
    have e1 : ((i * b : Nat) : Int) ≤ y := by push_cast; exact h1
    have e2 : (y : Int) < ((i * b + b : Nat) : Int) := by push_cast; exact h2
    omega

/-- The fill loops of ApplyImageSplit for the cell of row `i` and column `j` store `avg` at
the positions of the cell that are inside the original bounds, and nowhere else. -/
theorem ApplyImageSplit_fill (R : Image) (W H W2 H2 b i j : Nat) (hb : 0 < b)
    (hR : IsRect R W2 H2) (hW : W ≤ W2) (hH : H ≤ H2) (avg : Pixel) :
    IsRect (ApplyImageSplit.fill R W H ((j : Int) * b) ((i : Int) * b) ((j : Int) * b + b)
        ((i : Int) * b + b) avg) W2 H2
      ∧ (∀ y x, y < H → x < W → y / b = i → x / b = j →
          pixelAt (ApplyImageSplit.fill R W H ((j : Int) * b) ((i : Int) * b)
            ((j : Int) * b + b) ((i : Int) * b + b) avg) y x = some avg)
      ∧ (∀ y x, ¬ (y < H ∧ x < W ∧ y / b = i ∧ x / b = j) →
          pixelAt (ApplyImageSplit.fill R W H ((j : Int) * b) ((i : Int) * b)
            ((j : Int) * b + b) ((i : Int) * b + b) avg) y x = pixelAt R y x) := by
  unfold ApplyImageSplit.fill
  rw [foldl_product (fun (r : Image) (y x : Int) =>
    if y < (H : Int) ∧ x < (W : Int) then setPixel r y.toNat x.toNat avg else r)]
  have hnd : (List.product (intRange ((i : Int) * b) ((i : Int) * b + b))
      (intRange ((j : Int) * b) ((j : Int) * b + b))).Nodup :=
    List.Nodup.product (intRange_nodup _ _) (intRange_nodup _ _)
  have key := foldl_footprint
    (fun (r : Image) (p : Int × Int) =>
      if p.1 < (H : Int) ∧ p.2 < (W : Int) then setPixel r p.1.toNat p.2.toNat avg else r)
    (fun p y x => p.1 < (H : Int) ∧ p.2 < (W : Int) ∧ (y : Int) = p.1 ∧ (x : Int) = p.2)
    (fun _ _ _ => avg) (fun r => IsRect r W2 H2) _ R hR
    (hnd.imp (fun {p q} hpq y x h1 h2 => hpq (Prod.ext (h1.2.2.1.symm.trans h2.2.2.1)
      (h1.2.2.2.symm.trans h2.2.2.2))))
    (fun p hp R1 hR1 _ => by
      obtain ⟨p1, p2⟩ := p
      rw [mem_list_product, mem_intRange, mem_intRange] at hp
      have h1 : (0 : Int) ≤ p1 := le_trans (by positivity) hp.1.1
      have h2 : (0 : Int) ≤ p2 := le_trans (by positivity) hp.2.1
      by_cases hg : p1 < (H : Int) ∧ p2 < (W : Int)
      · simp only [hg, and_self, if_true, true_and]
        refine ⟨setPixel_isRect _ _ _ _ _ _ hR1, ?_, ?_⟩
        · rintro y x ⟨hy, hx⟩
          have ey : p1.toNat = y := by omega
          have ex : p2.toNat = x := by omega
          rw [ey, ex]
          exact pixelAt_setPixel_self _ W2 H2 y x _ hR1 (by omega) (by omega)
        · intro y x hne
          apply pixelAt_setPixel_ne
          rintro ⟨ey, ex⟩
          apply hne
          constructor <;> omega
      · dsimp only
        rw [if_neg hg]
        exact ⟨hR1, fun y x h => absurd ⟨h.1, h.2.1⟩ hg, fun _ _ _ => rfl⟩)
  refine ⟨key.1, ?_, ?_⟩
  · intro y x hy hx hyi hxj
    rw [cell_bounds_int b y i hb] at hyi
    rw [cell_bounds_int b x j hb] at hxj
    exact key.2.1 ((y : Int), (x : Int))
      (by rw [mem_list_product, mem_intRange, mem_intRange]; exact ⟨hyi, hxj⟩) y x
      ⟨by omega, by omega, rfl, rfl⟩
  · intro y x hne
    apply key.2.2
    rintro ⟨p1, p2⟩ hp ⟨h1, h2, h3, h4⟩
    rw [mem_list_product, mem_intRange, mem_intRange] at hp
    simp only at h1 h2 h3 h4
    apply hne
    refine ⟨by omega, by omega, ?_, ?_⟩
    · rw [cell_bounds_int b y i hb, h3]; exact hp.1
    · rw [cell_bounds_int b x j hb, h4]; exact hp.2

/-- The accumulators of a cell depend only on the pixels of the cell that are inside the
original bounds. -/
theorem ApplyImageSplit_sum_congr (R R0 : Image) (W H b i j : Nat) (hb : 0 < b)
    (value : Pixel → Int)
    (h : ∀ y x, y < H → x < W → y / b = i → x / b = j → pixelAt R y x = pixelAt R0 y x) :
    ApplyImageSplit.sum R W H ((j : Int) * b) ((i : Int) * b) ((j : Int) * b + b)
        ((i : Int) * b + b) value
      = ApplyImageSplit.sum R0 W H ((j : Int) * b) ((i : Int) * b) ((j : Int) * b + b)
        ((i : Int) * b + b) value := by
  rw [ApplyImageSplit_sum_eq R W H b i j hb, ApplyImageSplit_sum_eq R0 W H b i j hb]
  apply Finset.sum_congr rfl
  intro y hy
  apply Finset.sum_congr rfl
  intro x hx
  simp only [Finset.mem_filter, Finset.mem_range] at hy hx
  rw [getPixel_eq_of_pixelAt_eq R R0 y x (h y x hy.1 hx.1 hy.2 hx.2)]

theorem ApplyImageSplit_average_congr (R R0 : Image) (W H b i j : Nat) (hb : 0 < b)
    (h : ∀ y x, y < H → x < W → y / b = i → x / b = j → pixelAt R y x = pixelAt R0 y x) :
    ApplyImageSplit.average R W H ((j : Int) * b) ((i : Int) * b) ((j : Int) * b + b)
        ((i : Int) * b + b)
      = ApplyImageSplit.average R0 W H ((j : Int) * b) ((i : Int) * b) ((j : Int) * b + b)
        ((i : Int) * b + b) := by
  unfold ApplyImageSplit.average
  simp only [ApplyImageSplit_sum_congr R R0 W H b i j hb _ h]

/-- A cell that has a position inside the original bounds is processed without a division
by zero: its pixels inside the bounds receive the average colour. -/
theorem ApplyImageSplit_block_eq (R : Image) (W H b i j : Nat) (hb : 0 < b)
    (hi : i * b < H) (hj : j * b < W) :
    ApplyImageSplit.block b W H R i j
      = Except.ok (ApplyImageSplit.fill R W H ((j : Int) * b) ((i : Int) * b)
          ((j : Int) * b + b) ((i : Int) * b + b)
          (ApplyImageSplit.average R W H ((j : Int) * b) ((i : Int) * b) ((j : Int) * b + b)
            ((i : Int) * b + b))) := by
  have hn : ApplyImageSplit.sum R W H ((j : Int) * b) ((i : Int) * b) ((j : Int) * b + b)
      ((i : Int) * b + b) (fun _ => 1) ≠ 0 := by
    rw [ApplyImageSplit_num_pixels R W H b i j hb]
    have h1 := card_cell_pos H b i hb hi
    have h2 := card_cell_pos W b j hb hj
    have := Nat.mul_pos h1 h2
    omega
  unfold ApplyImageSplit.block ApplyImageSplit.average int_div
  simp only [hn, if_false, bind, Except.bind, pure, Except.pure]

theorem CeilDiv_of_pos (n b : Nat) (hb : 0 < b) :
    CeilDiv n b = Except.ok (((n + b - 1) / b : Nat) : Int) := by
  unfold CeilDiv int_div
  rw [if_neg (by omega)]
  congr 1
  rw [Int.tdiv_eq_ediv (by omega) (by omega)]
  have : (n : Int) + b - 1 = ((n + b - 1 : Nat) : Int) := by omega
  rw [this]
  exact (Int.ofNat_ediv _ _).symm

theorem foldlM_ok {α σ ε : Type} (step : σ → α → Except ε σ) (g : σ → α → σ) (l : List α)
    (h : ∀ s, ∀ a ∈ l, step s a = Except.ok (g s a)) :
    ∀ s, l.foldlM step s = Except.ok (l.foldl g s) := by
  induction l with
  | nil => intro s; rfl
  | cons a l ih =>
    intro s
    rw [List.foldlM_cons, h s a (List.mem_cons_self _ _), List.foldl_cons]
    exact ih (fun s b hb => h s b (List.mem_cons_of_mem _ hb)) _

theorem ceil_mul_bounds (n b : Nat) (hb : 0 < b) :
    n ≤ (n + b - 1) / b * b ∧ (n + b - 1) / b * b < n + b := by
  have h1 := Nat.div_mul_le_self (n + b - 1) b
  have h2 := Nat.lt_div_mul_add hb (a := n + b - 1)
  omega

theorem cell_start_lt (n b i : Nat) (hb : 0 < b) (hi : i < (n + b - 1) / b) : i * b < n := by
  have h1 : (i + 1) * b ≤ (n + b - 1) / b * b := Nat.mul_le_mul_right b hi
  have h2 := Nat.div_mul_le_self (n + b - 1) b
  have h3 : (i + 1) * b = i * b + b := by ring
  omega

theorem cell_index_lt (n b y : Nat) (hb : 0 < b) (hy : y < n) : y / b < (n + b - 1) / b := by
  rw [Nat.div_lt_iff_lt_mul hb]
  have := (ceil_mul_bounds n b hb).1
  omega

/-- The image after the two resize steps of ApplyImageSplit (lines 292-295). -/
theorem resize_rows (image_ : Image) (W H W2 H2 : Nat) (hr : IsRect image_ W H)
    (hW : W ≤ W2) (hH : H ≤ H2) :
    ∃ image1 image2 : Image,
      Failure.lift (vector_resize image_ (H2 : Int) []) = Except.ok image1
      ∧ Failure.lift (image1.mapM (fun row => vector_resize row (W2 : Int) default))
        = Except.ok image2
      ∧ IsRect image2 W2 H2
      ∧ (∀ y x, y < H → x < W → pixelAt image2 y x = pixelAt image_ y x)
      ∧ (∀ y x, y < H2 → x < W2 → ¬ (y < H ∧ x < W) → pixelAt image2 y x = some ⟨0, 0, 0⟩) := by
  have h1 : vector_resize image_ (H2 : Int) []
      = Except.ok (image_ ++ List.replicate (H2 - H) []) := by
    unfold vector_resize
    rw [if_neg (by omega), Int.toNat_ofNat, List.take_of_length_le (by rw [hr.1]; exact hH),
      hr.1]
    rfl
  have h2 : (image_ ++ List.replicate (H2 - H) []).mapM
      (fun row => vector_resize row (W2 : Int) (default : Pixel))
      = Except.ok ((image_ ++ List.replicate (H2 - H) []).map
          (fun (row : List Pixel) =>
            row.take W2 ++ List.replicate (W2 - row.length) default)) := by
    apply mapM_ok
    intro row _
    unfold vector_resize
    rw [if_neg (by omega), Int.toNat_ofNat]
    rfl
  refine ⟨_, _, by rw [h1]; rfl, by rw [h2]; rfl, ?_, ?_, ?_⟩
  · refine ⟨by simp [hr.1]; omega, ?_⟩
    intro row hrow
    rw [List.mem_map] at hrow
    obtain ⟨r, _, rfl⟩ := hrow
    simp
    omega
  · intro y x hy hx
    have hy2 : y < image_.length := by rw [hr.1]; exact hy
    have hrow : (image_[y]).length = W := hr.2 _ (List.getElem_mem _)
    rw [pixelAt_eq, pixelAt_eq, List.getElem?_map, List.getElem?_append_left hy2,
      List.getElem?_eq_getElem hy2]
    simp only [Option.map_some', Option.some_bind]
    rw [List.getElem?_append_left (by simp; omega), List.getElem?_take_of_lt (by omega)]
  · intro y x hy hx hne
    rw [pixelAt_eq, List.getElem?_map]
    by_cases hyH : y < H
    · have hxW : W ≤ x := by
        by_contra hc
        exact hne ⟨hyH, by omega⟩
      have hy2 : y < image_.length := by rw [hr.1]; exact hyH
      have hrow : (image_[y]).length = W := hr.2 _ (List.getElem_mem _)
      rw [List.getElem?_append_left hy2, List.getElem?_eq_getElem hy2]
      simp only [Option.map_some', Option.some_bind]
      rw [List.getElem?_append_right (by simp; omega)]
      simp only [List.length_take, hrow]
      rw [List.getElem?_replicate]
      rw [if_pos (by omega)]
      rfl
    · rw [List.getElem?_append_right (by rw [hr.1]; omega), List.getElem?_replicate,
        if_pos (by rw [hr.1]; omega)]
      simp only [Option.map_some', Option.some_bind, List.take_nil, List.nil_append,
        List.length_nil, Nat.sub_zero]
      rw [List.getElem?_replicate, if_pos hx]
      rfl

/-- The loops over the cells, run on an image `R0` of the new dimensions: every position
inside the original bounds receives the average colour of its cell, computed from `R0`, and
no other position changes. -/
theorem ApplyImageSplit_cells (R0 : Image) (W H b : Nat) (hb : 0 < b)
    (hR : IsRect R0 ((W + b - 1) / b * b) ((H + b - 1) / b * b)) :
    ∃ result : Image,
      (intRange 0 (((H + b - 1) / b : Nat) : Int)).foldlM (fun (image_ : Image) (i : Int) =>
        (intRange 0 (((W + b - 1) / b : Nat) : Int)).foldlM (fun (image_ : Image) (j : Int) =>
          ApplyImageSplit.block b W H image_ i j) image_) R0 = Except.ok result
      ∧ IsRect result ((W + b - 1) / b * b) ((H + b - 1) / b * b)
      ∧ (∀ y x, y < H → x < W →
          pixelAt result y x = some (ApplyImageSplit.average R0 W H
            (((x / b : Nat) : Int) * b) (((y / b : Nat) : Int) * b)
            (((x / b : Nat) : Int) * b + b) (((y / b : Nat) : Int) * b + b)))
      ∧ (∀ y x, ¬ (y < H ∧ x < W) → pixelAt result y x = pixelAt R0 y x) := by
  have hW2 := (ceil_mul_bounds W b hb).1
  have hH2 := (ceil_mul_bounds H b hb).1
  -- the loops never divide by zero
  have hinner : ∀ (s : Image) (i : Int), i ∈ intRange 0 (((H + b - 1) / b : Nat) : Int) →
      (intRange 0 (((W + b - 1) / b : Nat) : Int)).foldlM (fun (image_ : Image) (j : Int) =>
          ApplyImageSplit.block b W H image_ i j) s
        = Except.ok ((intRange 0 (((W + b - 1) / b : Nat) : Int)).foldl
            (fun (image_ : Image) (j : Int) =>
              ApplyImageSplit.fill image_ W H (j * b) (i * b) (j * b + b) (i * b + b)
                (ApplyImageSplit.average image_ W H (j * b) (i * b) (j * b + b) (i * b + b)))
            s) := by
    intro s i hi
    rw [mem_intRange] at hi
    apply foldlM_ok
    intro s2 j hj
    rw [mem_intRange] at hj
    obtain ⟨i2, rfl⟩ := Int.eq_ofNat_of_zero_le hi.1
    obtain ⟨j2, rfl⟩ := Int.eq_ofNat_of_zero_le hj.1
    exact ApplyImageSplit_block_eq s2 W H b i2 j2 hb (cell_start_lt H b i2 hb (by omega))
      (cell_start_lt W b j2 hb (by omega))
  rw [foldlM_ok _ (fun (s : Image) (i : Int) =>
    (intRange 0 (((W + b - 1) / b : Nat) : Int)).foldl
      (fun (image_ : Image) (j : Int) =>
        ApplyImageSplit.fill image_ W H (j * b) (i * b) (j * b + b) (i * b + b)
          (ApplyImageSplit.average image_ W H (j * b) (i * b) (j * b + b) (i * b + b))) s) _
    hinner R0]
  rw [foldl_product (fun (image_ : Image) (i j : Int) =>
    ApplyImageSplit.fill image_ W H (j * b) (i * b) (j * b + b) (i * b + b)
      (ApplyImageSplit.average image_ W H (j * b) (i * b) (j * b + b) (i * b + b)))]
  have hnd : (List.product (intRange 0 (((H + b - 1) / b : Nat) : Int))
      (intRange 0 (((W + b - 1) / b : Nat) : Int))).Nodup :=
    List.Nodup.product (intRange_nodup _ _) (intRange_nodup _ _)
  have key := foldl_footprint
    (fun (image_ : Image) (p : Int × Int) =>
      ApplyImageSplit.fill image_ W H (p.2 * b) (p.1 * b) (p.2 * b + b) (p.1 * b + b)
        (ApplyImageSplit.average image_ W H (p.2 * b) (p.1 * b) (p.2 * b + b) (p.1 * b + b)))
    (fun p y x => y < H ∧ x < W ∧ ((y / b : Nat) : Int) = p.1 ∧ ((x / b : Nat) : Int) = p.2)
    (fun p _ _ => ApplyImageSplit.average R0 W H (p.2 * b) (p.1 * b) (p.2 * b + b)
      (p.1 * b + b))
    (fun r => IsRect r ((W + b - 1) / b * b) ((H + b - 1) / b * b)) _ R0 hR
    (hnd.imp (fun {p q} hpq y x h1 h2 => hpq (Prod.ext (h1.2.2.1.symm.trans h2.2.2.1)
      (h1.2.2.2.symm.trans h2.2.2.2))))
    (fun p hp R1 hR1 hagree => by
      obtain ⟨p1, p2⟩ := p
      rw [mem_list_product, mem_intRange, mem_intRange] at hp
      obtain ⟨i, rfl⟩ := Int.eq_ofNat_of_zero_le hp.1.1
      obtain ⟨j, rfl⟩ := Int.eq_ofNat_of_zero_le hp.2.1
      have hfill := ApplyImageSplit_fill R1 W H _ _ b i j hb hR1 hW2 hH2
        (ApplyImageSplit.average R1 W H ((j : Int) * b) ((i : Int) * b) ((j : Int) * b + b)
          ((i : Int) * b + b))
      have havg := ApplyImageSplit_average_congr R1 R0 W H b i j hb
        (fun y x hy hx hyi hxj => hagree y x ⟨hy, hx, by rw [hyi], by rw [hxj]⟩)
      refine ⟨hfill.1, ?_, ?_⟩
      · rintro y x ⟨hy, hx, hyi, hxj⟩
        dsimp only
        rw [← havg]
        exact hfill.2.1 y x hy hx (Int.ofNat.inj hyi) (Int.ofNat.inj hxj)
      · intro y x hne
        apply hfill.2.2
        rintro ⟨hy, hx, hyi, hxj⟩
        exact hne ⟨hy, hx, by rw [hyi], by rw [hxj]⟩)
  refine ⟨_, rfl, key.1, ?_, ?_⟩
  · intro y x hy hx
    exact key.2.1 (((y / b : Nat) : Int), ((x / b : Nat) : Int))
      (by
        rw [mem_list_product, mem_intRange, mem_intRange]
        exact ⟨⟨Int.ofNat_nonneg _, Int.ofNat_lt.mpr (cell_index_lt H b y hb hy)⟩,
          ⟨Int.ofNat_nonneg _, Int.ofNat_lt.mpr (cell_index_lt W b x hb hx)⟩⟩)
      y x ⟨hy, hx, rfl, rfl⟩
  · intro y x hne
    apply key.2.2
    rintro p _ ⟨hy, hx, _, _⟩
    exact hne ⟨hy, hx⟩

/-- ApplyImageSplit for a positive block size on a rectangular image: the result has the
padded dimensions, every pixel inside the original bounds holds the average colour of its
cell, computed from the original image, and every pixel of the padding is (0,0,0). -/
theorem ApplyImageSplit_of_pos (image_ : Image) (W H b : Nat) (hb : 0 < b)
    (hr : IsRect image_ W H) (hH : 0 < H) :
    ∃ result : Image, ApplyImageSplit b image_ = Except.ok result
      ∧ IsRect result ((W + b - 1) / b * b) ((H + b - 1) / b * b)
      ∧ (∀ y x, y < H → x < W →
          pixelAt result y x = some (ApplyImageSplit.average image_ W H
            (((x / b : Nat) : Int) * b) (((y / b : Nat) : Int) * b)
            (((x / b : Nat) : Int) * b + b) (((y / b : Nat) : Int) * b + b)))
      ∧ (∀ y x, y < (H + b - 1) / b * b → x < (W + b - 1) / b * b → ¬ (y < H ∧ x < W) →
          pixelAt result y x = some ⟨0, 0, 0⟩) := by
  have hW2 := (ceil_mul_bounds W b hb).1
  have hH2 := (ceil_mul_bounds H b hb).1
  obtain ⟨image1, image2, he1, he2, hr2, hin2, hout2⟩ := resize_rows image_ W H _ _ hr hW2 hH2
  obtain ⟨result, hres, hrr, hin, hout⟩ := ApplyImageSplit_cells image2 W H b hb hr2
  refine ⟨result, ?_, hrr, ?_, ?_⟩
  · unfold ApplyImageSplit
    have hWd : (image_.getD 0 []).length = W := hr.getD_length 0 hH
    simp only [hWd, hr.1]
    rw [CeilDiv_of_pos W b hb, CeilDiv_of_pos H b hb]
    simp only [bind, Except.bind]
    have c1 : (((W + b - 1) / b : Nat) : Int) * (b : Int) = (((W + b - 1) / b * b : Nat) : Int) :=
      by push_cast; rfl
    have c2 : (((H + b - 1) / b : Nat) : Int) * (b : Int) = (((H + b - 1) / b * b : Nat) : Int) :=
      by push_cast; rfl
    rw [c1, c2, he1]
    simp only
    rw [he2]
    exact hres
  · intro y x hy hx
    rw [hin y x hy hx]
    congr 1
    exact ApplyImageSplit_average_congr image2 image_ W H b (y / b) (x / b) hb
      (fun y2 x2 hy2 hx2 _ _ => hin2 y2 x2 hy2 hx2)
  · intro y x hy hx hne
    rw [hout y x hne]
    exact hout2 y x hy hx hne

/-! ## Theorems: ApplyImageSplit (C11, C12, C18, C20) -/

theorem getPixel_inRange (image : Image) (hc : ChannelsInRange image) (y x : Nat) :
    (getPixel image y x).InRange := by
  unfold getPixel
  by_cases hy : y < image.length
  · rw [List.getD_eq_getElem _ _ hy]
    by_cases hx : x < image[y].length
    · rw [List.getD_eq_getElem _ _ hx]
      exact hc _ (List.getElem_mem _) _ (List.getElem_mem _)
    · rw [List.getD_eq_default _ _ (by omega)]
      decide
  · have h0 : image.getD y [] = [] := List.getD_eq_default _ _ (by omega)
    rw [h0]
    simp only [List.getD_nil]
    decide

/-- One channel of the average colour of a cell, for channel values below 256: the quotient
of the sum of the channel over the positions of the cell inside the original bounds by the
number of these positions. -/
theorem average_channel (image_ : Image) (W H b i j : Nat) (hb : 0 < b)
    (channel : Pixel → Nat) (hch : ∀ y x, channel (getPixel image_ y x) ≤ 255) :
    toUInt8 (Int.tdiv
        (ApplyImageSplit.sum image_ W H ((j : Int) * b) ((i : Int) * b) ((j : Int) * b + b)
          ((i : Int) * b + b) (fun pixel => (channel pixel : Int)))
        (ApplyImageSplit.sum image_ W H ((j : Int) * b) ((i : Int) * b) ((j : Int) * b + b)
          ((i : Int) * b + b) (fun _ => 1)))
      = (∑ y ∈ (Finset.range H).filter (fun y => y / b = i),
          ∑ x ∈ (Finset.range W).filter (fun x => x / b = j), channel (getPixel image_ y x))
        / (((Finset.range H).filter (fun y => y / b = i)).card
            * ((Finset.range W).filter (fun x => x / b = j)).card) := by
  rw [ApplyImageSplit_num_pixels image_ W H b i j hb, ApplyImageSplit_sum_eq image_ W H b i j hb]
  have hcast : (∑ y ∈ (Finset.range H).filter (fun y => y / b = i),
      ∑ x ∈ (Finset.range W).filter (fun x => x / b = j), (channel (getPixel image_ y x) : Int))
      = ((∑ y ∈ (Finset.range H).filter (fun y => y / b = i),
          ∑ x ∈ (Finset.range W).filter (fun x => x / b = j),
            channel (getPixel image_ y x) : Nat) : Int) := by
    push_cast
    rfl
  rw [hcast, ← Int.ofNat_tdiv]
  have hle : (∑ y ∈ (Finset.range H).filter (fun y => y / b = i),
      ∑ x ∈ (Finset.range W).filter (fun x => x / b = j), channel (getPixel image_ y x))
      ≤ (((Finset.range H).filter (fun y => y / b = i)).card
          * ((Finset.range W).filter (fun x => x / b = j)).card) * 255 := by
    calc _ ≤ ∑ _y ∈ (Finset.range H).filter (fun y => y / b = i),
          ((Finset.range W).filter (fun x => x / b = j)).card * 255 := by
          apply Finset.sum_le_sum
          intro y _
          calc _ ≤ ∑ _x ∈ (Finset.range W).filter (fun x => x / b = j), 255 :=
                Finset.sum_le_sum (fun x _ => hch y x)
            _ = _ := by simp
      _ = _ := by simp; ring
  have hq := Nat.div_le_of_le_mul hle
  unfold toUInt8
  generalize (∑ y ∈ (Finset.range H).filter (fun y => y / b = i),
      ∑ x ∈ (Finset.range W).filter (fun x => x / b = j), channel (getPixel image_ y x))
    / (((Finset.range H).filter (fun y => y / b = i)).card
        * ((Finset.range W).filter (fun x => x / b = j)).card) = q at hq ⊢
  omega

theorem filter_div_one (n y : Nat) (hy : y < n) :
    (Finset.range n).filter (fun y2 => y2 / 1 = y / 1) = {y} := by
  ext a
  simp only [Nat.div_one, Finset.mem_filter, Finset.mem_range, Finset.mem_singleton]
  constructor
  · rintro ⟨_, h⟩; exact h
  · rintro rfl; exact ⟨hy, rfl⟩

/-- With block size 1 the average colour of the cell of a pixel is the pixel. -/
theorem average_one (image_ : Image) (W H y x : Nat) (hc : ChannelsInRange image_)
    (hy : y < H) (hx : x < W) :
    ApplyImageSplit.average image_ W H (((x / 1 : Nat) : Int) * (1 : Nat))
        (((y / 1 : Nat) : Int) * (1 : Nat)) (((x / 1 : Nat) : Int) * (1 : Nat) + (1 : Nat))
        (((y / 1 : Nat) : Int) * (1 : Nat) + (1 : Nat))
      = getPixel image_ y x := by
  have hrange := fun y2 x2 => getPixel_inRange image_ hc y2 x2
  have hr := average_channel image_ W H 1 (y / 1) (x / 1) (by decide) Pixel.r
    (fun y2 x2 => by have := (hrange y2 x2).2.2; omega)
  have hg := average_channel image_ W H 1 (y / 1) (x / 1) (by decide) Pixel.g
    (fun y2 x2 => by have := (hrange y2 x2).2.1; omega)
  have hb := average_channel image_ W H 1 (y / 1) (x / 1) (by decide) Pixel.b
    (fun y2 x2 => by have := (hrange y2 x2).1; omega)
  rw [filter_div_one H y hy, filter_div_one W x hx] at hr hg hb
  simp only [Finset.sum_singleton, Finset.card_singleton, Nat.mul_one, Nat.div_one] at hr hg hb
  unfold ApplyImageSplit.average
  simp only [Nat.div_one] at hr hg hb ⊢
  rw [hr, hg, hb]

/-- C11. ApplyImageSplit with block size 1 changes nothing: for every rectangular image of
width W > 0 and height H > 0 with 8-bit channels, ApplyImageSplit(1) returns and the image
after the call is the image before it, so the dimensions and the pixel at every position are
the same. -/
theorem ApplyImageSplit_one (image_ : Image) (W H : Nat) (hr : IsRect image_ W H)
    (hW : 0 < W) (hH : 0 < H) (hc : ChannelsInRange image_) :
    ApplyImageSplit 1 image_ = Except.ok image_
      ∧ widthOf image_ = W ∧ heightOf image_ = H := by
  obtain ⟨result, hres, hrr, hin, _⟩ := ApplyImageSplit_of_pos image_ W H 1 (by decide) hr hH
  have e1 : (W + 1 - 1) / 1 * 1 = W := by simp
  have e2 : (H + 1 - 1) / 1 * 1 = H := by simp
  rw [e1, e2] at hrr
  have heq : result = image_ := by
    apply image_ext result image_ W H hrr hr
    intro y x hy hx
    rw [hin y x hy hx, average_one image_ W H y x hc hy hx]
    obtain ⟨p, hp⟩ := pixelAt_lt_of_isRect image_ W H y x hr hy hx
    rw [hp, getPixel_of_pixelAt image_ y x p hp]
  rw [heq] at hres
  exact ⟨hres, hr.widthOf_eq hH, hr.1⟩

set_option maxRecDepth 100000 in
/-- Witness of C11: the 3x2 test image. -/
theorem ApplyImageSplit_one_witness :
    ApplyImageSplit 1 (sampleImage 3 2) = Except.ok (sampleImage 3 2) :=
  (ApplyImageSplit_one (sampleImage 3 2) 3 2 (by decide) (by decide) (by decide)
    (by decide)).1

/-- For a negative block size the new size is below the old one. -/
theorem new_size_lt (n b : Int) (hb : b < 0) : Int.tdiv (n + b - 1) b * b < n := by
  obtain ⟨c, rfl⟩ : ∃ c, b = -c := ⟨-b, by omega⟩
  have hc : 0 < c := by omega
  rw [Int.tdiv_neg]
  by_cases ha : 0 ≤ n + -c - 1
  · rw [Int.tdiv_eq_ediv ha (by omega)]
    have := Int.ediv_mul_le (n + -c - 1) (by omega : c ≠ 0)
    have e : -((n + -c - 1) / c) * -c = (n + -c - 1) / c * c := by ring
    omega
  · have e2 : n + -c - 1 = -(-(n + -c - 1)) := by omega
    rw [e2, Int.neg_tdiv, Int.tdiv_eq_ediv (by omega) (by omega)]
    have := Int.lt_ediv_add_one_mul_self (-(n + -c - 1)) hc
    have e : - -(-(n + -c - 1) / c) * -c = -(-(n + -c - 1) / c * c) := by ring
    have e3 : (-(n + -c - 1) / c + 1) * c = -(n + -c - 1) / c * c + c := by ring
    omega

theorem vector_resize_cases {α : Type} (v : List α) (n : Int) (fill : α) :
    (n < 0 ∧ vector_resize v n fill = Except.error Exception.length_error)
      ∨ (0 ≤ n ∧ ∃ r, vector_resize v n fill = Except.ok r ∧ r.length = n.toNat) := by
  unfold vector_resize
  by_cases hn : n < 0
  · left
    rw [if_pos hn]
    exact ⟨hn, rfl⟩
  · right
    rw [if_neg hn]
    refine ⟨by omega, _, rfl, ?_⟩
    simp only [List.length_append, List.length_take, List.length_replicate]
    omega

theorem mapM_resize (rows : Image) (n : Int) :
    rows.mapM (fun row => vector_resize row n (default : Pixel))
        = Except.error Exception.length_error
      ∨ ∃ image2 : Image, rows.mapM (fun row => vector_resize row n (default : Pixel))
          = Except.ok image2 ∧ image2.length = rows.length := by
  induction rows with
  | nil => right; exact ⟨[], rfl, rfl⟩
  | cons row rows ih =>
    rw [List.mapM_cons]
    rcases vector_resize_cases row n (default : Pixel) with ⟨_, h⟩ | ⟨_, r, h, _⟩
    · left
      rw [h]
      rfl
    · rw [h]
      rcases ih with h2 | ⟨image2, h2, hl⟩
      · left
        rw [h2]
        rfl
      · right
        rw [h2]
        exact ⟨r :: image2, rfl, by simp [hl]⟩

/-- C20, amended. For every image and every block size <= 0, ApplyImageSplit signals no
InvalidParameterError and does not leave the image as it was: for block size 0 it divides by
zero in CeilDiv (line 286), and for a negative block size it either throws the
std::length_error of a resize to a negative size or returns normally with an image of fewer
rows than before. -/
theorem ApplyImageSplit_nonpos (image_ : Image) (block_size : Int) (hb : block_size ≤ 0) :
    (block_size = 0 → ApplyImageSplit block_size image_ = Except.error Failure.division_by_zero)
      ∧ (block_size < 0 →
          ApplyImageSplit block_size image_
              = Except.error (Failure.exception Exception.length_error)
            ∨ ∃ result : Image, ApplyImageSplit block_size image_ = Except.ok result
                ∧ heightOf result < heightOf image_) := by
  constructor
  · rintro rfl
    rfl
  · intro hneg
    have hne : ¬ block_size = 0 := by omega
    have hlt := new_size_lt (image_.length : Int) block_size hneg
    simp only [ApplyImageSplit, CeilDiv, int_div, if_neg hne, bind, Except.bind]
    generalize Int.tdiv ((image_.length : Int) + block_size - 1) block_size = nbh at hlt ⊢
    generalize Int.tdiv (((image_.getD 0 []).length : Int) + block_size - 1) block_size = nbw
    rcases vector_resize_cases image_ (nbh * block_size) [] with ⟨_, h⟩ | ⟨h0, image1, h, hl1⟩
    · left
      rw [h]
      rfl
    · rw [h]
      simp only [Failure.lift]
      have hnb : nbh ≤ 0 := by
        by_contra hc
        have : nbh * block_size < 0 := Int.mul_neg_of_pos_of_neg (by omega) hneg
        omega
      rcases mapM_resize image1 (nbw * block_size) with h2 | ⟨image2, h2, hl⟩
      · left
        rw [h2]
      · right
        rw [h2]
        simp only
        rw [intRange_eq_nil 0 nbh hnb]
        refine ⟨image2, rfl, ?_⟩
        unfold heightOf
        omega

/-- Witness of the amended C20: block size 0 on the checkerboard. -/
theorem ApplyImageSplit_nonpos_witness :
    ApplyImageSplit 0 checkerboard = Except.error Failure.division_by_zero :=
  (ApplyImageSplit_nonpos checkerboard 0 (by decide)).1 rfl

set_option maxRecDepth 100000 in
/-- C20 does not hold as stated: with block size 0 the call divides by zero in CeilDiv, which
signals no exception; with block size -1 the call on the 3x3 test image returns normally and
the image is cut to its top-left pixel; with block size -1 on a 1x1 image the resize throws
std::length_error. ApplyImageSplit does not check its parameter, and the source defines no
InvalidParameterError. -/
theorem ApplyImageSplit_no_validation :
    ApplyImageSplit 0 [[⟨1, 2, 3⟩]] = Except.error Failure.division_by_zero
      ∧ ApplyImageSplit (-1) (sampleImage 3 3) = Except.ok [[⟨0, 5, 1⟩]]
      ∧ ApplyImageSplit (-1) [[⟨1, 2, 3⟩]]
        = Except.error (Failure.exception Exception.length_error) := by
  decide

/-! ## Theorems: ApplyGaussianBlur (C13) -/

/-- The loop nest of `foldl_setPixel_all` with the column loop outside. -/
theorem foldl_setPixel_all_cols (f : Nat → Nat → Pixel) (R0 : Image) (W H : Nat)
    (hr : IsRect R0 W H) :
    (List.product (List.range W) (List.range H)).foldl
        (fun r p => setPixel r p.2 p.1 (f p.2 p.1)) R0
      = (List.range H).map (fun y => (List.range W).map (fun x => f y x)) := by
  have hnd : (List.product (List.range W) (List.range H)).Nodup :=
    List.Nodup.product (List.nodup_range W) (List.nodup_range H)
  have key := foldl_footprint (fun r (p : Nat × Nat) => setPixel r p.2 p.1 (f p.2 p.1))
    (fun p y x => y = p.2 ∧ x = p.1) (fun p _ _ => f p.2 p.1) (fun R => IsRect R W H)
    (List.product (List.range W) (List.range H)) R0 hr
    (hnd.imp (fun {a b} hab y x h1 h2 => hab (Prod.ext (h1.2.symm.trans h2.2)
      (h1.1.symm.trans h2.1))))
    (fun p hp R hR _ => by
      obtain ⟨p1, p2⟩ := p
      rw [mem_list_product, List.mem_range, List.mem_range] at hp
      refine ⟨setPixel_isRect _ _ _ _ _ _ hR, ?_, ?_⟩
      · rintro y x ⟨rfl, rfl⟩
        exact pixelAt_setPixel_self _ W H _ _ _ hR hp.2 hp.1
      · intro y x hne
        exact pixelAt_setPixel_ne _ _ _ _ _ _ (fun h => hne ⟨h.1.symm, h.2.symm⟩))
  apply image_ext _ _ W H key.1 (IsRect.range_map _ W H)
  intro y x hy hx
  rw [pixelAt_range_map _ W H y x hy hx]
  exact key.2.1 (x, y) (by rw [mem_list_product, List.mem_range, List.mem_range]; exact ⟨hx, hy⟩)
    y x ⟨rfl, rfl⟩

/-- The horizontal pass on a rectangular image. -/
theorem horizontal_pass_eq (kernel : List Flt) (radius : Int) (source : Image) (W H : Nat)
    (hr : IsRect source W H) (hH : 0 < H) :
    ApplyGaussianBlur.horizontal_pass kernel radius source
      = (List.range H).map (fun (y : Nat) => (List.range W).map (fun (x : Nat) =>
          ApplyGaussianBlur.pixel kernel radius (fun k =>
            getPixel source y (min (max ((x : Int) + k) 0) ((W : Int) - 1)).toNat))) := by
  unfold ApplyGaussianBlur.horizontal_pass
  simp only [hr.1, hr.getD_length 0 hH]
  rw [foldl_product (fun (r : Image) (y x : Nat) => setPixel r y x
    (ApplyGaussianBlur.pixel kernel radius (fun k =>
      getPixel source y (min (max ((x : Int) + k) 0) ((W : Int) - 1)).toNat)))]
  exact foldl_setPixel_all (fun _ (y x : Nat) => ApplyGaussianBlur.pixel kernel radius (fun k =>
      getPixel source y (min (max ((x : Int) + k) 0) ((W : Int) - 1)).toNat)) _ _ W H
    (IsRect.replicate W H default) (fun _ _ _ _ _ _ => rfl)

/-- The vertical pass on a rectangular image. -/
theorem vertical_pass_eq (kernel : List Flt) (radius : Int) (temp : Image) (W H : Nat)
    (hr : IsRect temp W H) (hH : 0 < H) :
    ApplyGaussianBlur.vertical_pass kernel radius temp
      = (List.range H).map (fun (y : Nat) => (List.range W).map (fun (x : Nat) =>
          ApplyGaussianBlur.pixel kernel radius (fun k =>
            getPixel temp (min (max ((y : Int) + k) 0) ((H : Int) - 1)).toNat x))) := by
  unfold ApplyGaussianBlur.vertical_pass
  simp only [hr.1, hr.getD_length 0 hH]
  rw [foldl_product (fun (r : Image) (x y : Nat) => setPixel r y x
    (ApplyGaussianBlur.pixel kernel radius (fun k =>
      getPixel temp (min (max ((y : Int) + k) 0) ((H : Int) - 1)).toNat x)))]
  exact foldl_setPixel_all_cols (fun (y x : Nat) => ApplyGaussianBlur.pixel kernel radius
    (fun k => getPixel temp (min (max ((y : Int) + k) 0) ((H : Int) - 1)).toNat x)) _ W H
    (IsRect.replicate W H default)

/-- ApplyGaussianBlur keeps the dimensions of a rectangular image. -/
theorem IsRect.ApplyGaussianBlur (exp : Flt → Flt) (sigma : Flt) (image_ : Image) (W H : Nat)
    (hr : IsRect image_ W H) (hH : 0 < H) :
    IsRect (ApplyGaussianBlur exp sigma image_) W H := by
  unfold ImageProcessor.ApplyGaussianBlur
  simp only
  have h1 : IsRect (ApplyGaussianBlur.horizontal_pass
      (ApplyGaussianBlur.kernel exp sigma (ApplyGaussianBlur.radius sigma))
      (ApplyGaussianBlur.radius sigma) image_) W H := by
    rw [horizontal_pass_eq _ _ image_ W H hr hH]
    exact IsRect.range_map _ W H
  rw [vertical_pass_eq _ _ _ W H h1 hH]
  exact IsRect.range_map _ W H

theorem IsRect.ApplyCrop (width height : Int) (image_ : Image) (W H : Nat)
    (hr : IsRect image_ W H) (hH : 0 < H) (hw : 0 ≤ width) (hh : 0 ≤ height) :
    ∃ result, ApplyCrop width height image_ = Except.ok result
      ∧ IsRect result (min width W).toNat (min height H).toNat := by
  refine ⟨_, ApplyCrop_eq width height image_ W H hr hH hw hh, ?_, ?_⟩
  · rw [List.length_map, List.length_take, hr.1]
    omega
  · intro row hrow
    rw [List.mem_map] at hrow
    obtain ⟨r, hr1, rfl⟩ := hrow
    rw [List.length_take, hr.2 r (List.mem_of_mem_take hr1)]
    omega

theorem IsRect.ApplyCircularBlur (A : FloatArith) (radius : Int) (image_ : Image) (W H : Nat)
    (hr : IsRect image_ W H) (hH : 0 < H) (hrad : 0 ≤ radius) :
    ∃ result, ApplyCircularBlur A radius image_ = Except.ok result ∧ IsRect result W H := by
  have hWd : (image_.getD 0 []).length = W := hr.getD_length 0 hH
  unfold ImageProcessor.ApplyCircularBlur
  simp only [hWd, hr.1]
  rw [if_neg (by omega)]
  refine ⟨_, rfl, ?_⟩
  apply foldl_invariant (fun res => IsRect res W H) _ _ _ hr
  intro res y _ hres
  apply foldl_invariant (fun res => IsRect res W H) _ _ _ hres
  intro res2 x _ hres2
  exact setPixel_isRect res2 W H _ _ _ hres2

end ImageProcessor
